import Mathlib

set_option maxRecDepth 8192

/-!
Verification of the red-black tree implementation in `RedBlackTree.cpp`
(F-M-CS3-Assignments/hw6-part1-HttpsWes).

The pointer structure of the C++ code is embedded shallowly:

* an `RBTNode*` value is an inductive tree (`RBTNode.nil` models a null
  pointer, `RBTNode.node` a heap node with its `data`, `color`, `IsNullNode`
  and owning `left`/`right` pointers);
* the non-owning `parent` back pointer used by `InsertFixUp` and the
  rotations is represented by a zipper context (a list of `Frame`s, innermost
  parent first);
* a null-pointer dereference (undefined behaviour in the C++ source) is
  modelled by an `Option` result, with `none` standing for the crash;
* the deep-copy helper `CopyOf` is additionally modelled at the level of an
  explicit heap of addressed nodes, to reason about storage independence and
  parent back-reference consistency.
-/

/-- Node colors.  `RedBlackTree.h` is not among the sources; modelled from the
spec (§3): the color enumeration has `COLOR_RED`, `COLOR_BLACK`, and a third
"double-black"/sentinel marker that the rendering logic maps to a `"D"` tag
but that no operation ever assigns. -/
inductive Color where
  | COLOR_RED
  | COLOR_BLACK
  | COLOR_DOUBLE_BLACK
deriving DecidableEq, Repr

/-- An `RBTNode*` value: `nil` models a null pointer, `node` a heap node with
the fields of the C++ `RBTNode` record (`data`, `color`, `IsNullNode`, and the
two owning child pointers).  The non-owning `parent` back pointer is not a
field of the functional value; it is represented by the zipper context
(`Frame` below) wherever the C++ code walks upward. -/
inductive RBTNode where
  | nil
  | node (data : Int) (color : Color) (IsNullNode : Bool) (left right : RBTNode)
deriving DecidableEq, Repr

/-- The `RedBlackTree` object: its `root` pointer and the stored item count.
The type of `numItems` is declared in the missing header; modelled from the
spec (§3): `count` is the number of keys currently stored. -/
structure RedBlackTree where
  root : RBTNode
  numItems : Nat
deriving DecidableEq, Repr

/-- Default constructor `RedBlackTree::RedBlackTree()`: empty tree. -/
def RedBlackTree.mkEmpty : RedBlackTree := ⟨.nil, 0⟩

/-- Constructor `RedBlackTree::RedBlackTree(int newData)`: a single black
root node with no children and a null parent. -/
def RedBlackTree.mkSingle (newData : Int) : RedBlackTree :=
  ⟨.node newData .COLOR_BLACK false .nil .nil, 1⟩

/-- `RedBlackTree::CopyOf`: recursively deep-copy a subtree (data, color,
`IsNullNode`, children).  In the functional embedding the copied value is the
rebuilt tree itself; the `parent` rewiring of the C++ code is modelled
separately at the heap level (`CopyOfH`). -/
def CopyOf : RBTNode → RBTNode
  | .nil => .nil
  | .node d c i l r => .node d c i (CopyOf l) (CopyOf r)

/-- Copy constructor `RedBlackTree::RedBlackTree(const RedBlackTree&)`. -/
def RedBlackTree.copyCtor (rbt : RedBlackTree) : RedBlackTree :=
  ⟨CopyOf rbt.root, rbt.numItems⟩

/-- `RedBlackTree::Get`: standard BST descent; returns the node found (a
subtree in the embedding) or `nil` for `nullptr`. -/
def GetNode (data : Int) : RBTNode → RBTNode
  | .nil => .nil
  | .node cd cc ci cl cr =>
      if data = cd then .node cd cc ci cl cr
      else if data < cd then GetNode data cl
      else GetNode data cr

/-- `RedBlackTree::Contains`: `Get(data) != nullptr`. -/
def RedBlackTree.Contains (t : RedBlackTree) (data : Int) : Bool :=
  GetNode data t.root ≠ .nil

/-- The descending phase of `RedBlackTree::GetMin`: follow `left` starting
from a current node with data `d`. -/
def minFrom (d : Int) : RBTNode → Int
  | .nil => d
  | .node d2 _ _ l _ => minFrom d2 l

/-- The descending phase of `RedBlackTree::GetMax`: follow `right`. -/
def maxFrom (d : Int) : RBTNode → Int
  | .nil => d
  | .node d2 _ _ _ r => maxFrom d2 r

/-- `RedBlackTree::GetMin`: throws `underflow_error("Tree is empty.")` on an
empty tree, otherwise walks `left` from the root. -/
def RedBlackTree.GetMin (t : RedBlackTree) : Except String Int :=
  match t.root with
  | .nil => .error "Tree is empty."
  | .node d _ _ l _ => .ok (minFrom d l)

/-- `RedBlackTree::GetMax`: throws `underflow_error("Tree is empty.")` on an
empty tree, otherwise walks `right` from the root. -/
def RedBlackTree.GetMax (t : RedBlackTree) : Except String Int :=
  match t.root with
  | .nil => .error "Tree is empty."
  | .node d _ _ _ r => .ok (maxFrom d r)

/-- `RedBlackTree::GetColorString`: `"R"` / `"B"` for red / black, `"D"` for
the sentinel third color.  The C++ function reads `n->color`; the embedding
passes that color directly. -/
def GetColorString (c : Color) : String :=
  if c = .COLOR_RED then "R"
  else if c = .COLOR_BLACK then "B"
  else "D"

/-- `RedBlackTree::GetNodeString`: `" " + color + to_string(data) + " "`. -/
def GetNodeString (d : Int) (c : Color) : String :=
  " " ++ GetColorString c ++ toString d ++ " "

/-- `RedBlackTree::ToInfixString`: in-order rendering. -/
def ToInfixString : RBTNode → String
  | .nil => ""
  | .node d c _ l r => ToInfixString l ++ GetNodeString d c ++ ToInfixString r

/-- `RedBlackTree::ToPrefixString`: pre-order rendering. -/
def ToPrefixString : RBTNode → String
  | .nil => ""
  | .node d c _ l r => GetNodeString d c ++ ToPrefixString l ++ ToPrefixString r

/-- `RedBlackTree::ToPostfixString`: post-order rendering. -/
def ToPostfixString : RBTNode → String
  | .nil => ""
  | .node d c _ l r => ToPostfixString l ++ ToPostfixString r ++ GetNodeString d c

/-- In-order list of keys of a subtree. -/
def keysOf : RBTNode → List Int
  | .nil => []
  | .node d _ _ l r => keysOf l ++ [d] ++ keysOf r

/-- In-order list of (key, color) pairs of a subtree. -/
def pairsOf : RBTNode → List (Int × Color)
  | .nil => []
  | .node d c _ l r => pairsOf l ++ [(d, c)] ++ pairsOf r

/-- Number of nodes reachable from a subtree pointer. -/
def countNodes : RBTNode → Nat
  | .nil => 0
  | .node _ _ _ l r => countNodes l + countNodes r + 1

/-- Whether a (possibly null) node is a red node: `u != nullptr && u->color
== COLOR_RED`. -/
def isRed : RBTNode → Bool
  | .node _ .COLOR_RED _ _ _ => true
  | _ => false

/-- Recolor the root of a subtree black (`x->color = COLOR_BLACK` on a node
known to exist); total helper, identity on `nil`. -/
def blackenRoot : RBTNode → RBTNode
  | .nil => .nil
  | .node d _ i l r => .node d .COLOR_BLACK i l r

/-- `root->color = COLOR_BLACK`: dereferences the root, so it crashes
(`none`) on an empty tree. -/
def setRootBlack : RBTNode → Option RBTNode
  | .nil => none
  | .node d _ i l r => some (.node d .COLOR_BLACK i l r)

/-- Invariant 3 of the data model: the root, if present, is black. -/
def rootBlackB : RBTNode → Bool
  | .nil => true
  | .node _ c _ _ _ => c = .COLOR_BLACK

/-- Invariant 4: no red node has a red child. -/
def noRR : RBTNode → Bool
  | .nil => true
  | .node _ c _ l r =>
      noRR l && noRR r && (if c = .COLOR_RED then !isRed l && !isRed r else true)

/-- Black contribution of a color to a path count. -/
def bIncr (c : Color) : Nat := if c = .COLOR_BLACK then 1 else 0

/-- Invariant 5 (black-height uniformity), computed: `some n` when every
downward path from this subtree to an absent-child position passes `n` black
nodes, `none` when the subtree violates the invariant. -/
def bh : RBTNode → Option Nat
  | .nil => some 0
  | .node _ c _ l r =>
      match bh l, bh r with
      | some m, some n => if m = n then some (m + bIncr c) else none
      | _, _ => none

/-- Every node of the subtree is colored red or black (never the third
sentinel color). -/
def noDColor : RBTNode → Bool
  | .nil => true
  | .node _ c _ l r =>
      (c = .COLOR_RED || c = .COLOR_BLACK) && noDColor l && noDColor r

/-- All colors stored in a subtree, in order. -/
def colorsOf : RBTNode → List Color
  | .nil => []
  | .node _ c _ l r => colorsOf l ++ [c] ++ colorsOf r

/-- Strict lower bound check for BST bounds (`none` = unbounded). -/
def oLt : Option Int → Int → Bool
  | none, _ => true
  | some a, b => a < b

/-- Strict upper bound check for BST bounds (`none` = unbounded). -/
def oGt : Option Int → Int → Bool
  | none, _ => true
  | some a, b => b < a

/-- Invariants 1 and 2 (BST ordering with strict bounds; strictness also
forces the keys to be pairwise distinct). -/
def bst : Option Int → Option Int → RBTNode → Bool
  | _, _, .nil => true
  | lo, hi, .node d _ _ l r =>
      oLt lo d && oGt hi d && bst lo (some d) l && bst (some d) hi r

/-- `RedBlackTree::LeftRotate` restricted to the subtree rooted at the pivot:
the pivot's right child becomes the subtree root, the displaced inner
grandchild reattaches to the pivot.  Dereferences the right child, hence
`none` (a crash) when it is null.  The relinking of the pivot's parent (or of
the tree root) is performed by the caller, which plugs the result back at the
pivot's position. -/
def LeftRotate : RBTNode → Option RBTNode
  | .node d c i l (.node rd rc ri rl rr) => some (.node rd rc ri (.node d c i l rl) rr)
  | _ => none

/-- `RedBlackTree::RightRotate` restricted to the subtree rooted at the
pivot; mirror image of `LeftRotate`. -/
def RightRotate : RBTNode → Option RBTNode
  | .node d c i (.node ld lc li ll lr) r => some (.node ld lc li ll (.node d c i lr r))
  | _ => none

/-- Which child of its parent a node is. -/
inductive Dir where
  | left
  | right
deriving DecidableEq, Repr

/-- One step of the parent chain of the current node: the parent node's own
fields (`data`, `color`, `IsNullNode`), the side `dir` on which the current
node hangs (so `dir = .left` models `parent->left == node`), and the parent's
other child `sibling`.  A list of frames, innermost parent first, represents
the whole chain of `parent` back pointers up to the root. -/
structure Frame where
  dir : Dir
  data : Int
  color : Color
  IsNullNode : Bool
  sibling : RBTNode
deriving DecidableEq, Repr

/-- Rebuild the parent node of a frame around the current subtree. -/
def nodeOfFrame (f : Frame) (s : RBTNode) : RBTNode :=
  match f.dir with
  | .left => .node f.data f.color f.IsNullNode s f.sibling
  | .right => .node f.data f.color f.IsNullNode f.sibling s

/-- Rebuild the whole tree from a subtree and its parent chain. -/
def plug : RBTNode → List Frame → RBTNode
  | s, [] => s
  | s, f :: rest => plug (nodeOfFrame f s) rest

/-- The descent of `RedBlackTree::BasicInsert`: walking down from the root
comparing `node->data < curr->data`, record the parent chain at which the new
node is attached (innermost parent first).  The final attachment re-compares
`node->data < parent->data`, which agrees with the last descent step. -/
def BasicInsertCtx (d : Int) : RBTNode → List Frame
  | .nil => []
  | .node cd cc ci cl cr =>
      if d < cd then BasicInsertCtx d cl ++ [⟨.left, cd, cc, ci, cr⟩]
      else BasicInsertCtx d cr ++ [⟨.right, cd, cc, ci, cl⟩]

/-- Direct recursive description of the tree produced by
`RedBlackTree::BasicInsert` attaching `nn` at the null position reached by
descending with key `d` (proved equal to plugging `nn` into
`BasicInsertCtx d`). -/
def basicInsertT (nn : RBTNode) (d : Int) : RBTNode → RBTNode
  | .nil => nn
  | .node cd cc ci cl cr =>
      if d < cd then .node cd cc ci (basicInsertT nn d cl) cr
      else .node cd cc ci cl (basicInsertT nn d cr)

/-- The `while` loop of `RedBlackTree::InsertFixUp`, one recursive call per
iteration, on the zipper `(s, ctx)` (current node and its parent chain).
`fuel` bounds the number of iterations; exhausting it yields `none`, as does
any null-pointer dereference of the C++ code.  Branches:

* loop exit when `node->parent == nullptr` (`ctx = []`) or the parent is not
  red; the final zipper is returned for the caller to plug;
* reading `node->parent` of a null `node` is a crash (`none`);
* uncle red (`GetUncle(node)` is `f2.sibling`): recolor parent and uncle
  black, grandparent red, move up two frames;
* uncle black/absent with a grandparent frame: the four
  `IsLeftChild`/`IsRightChild` shape cases of the source — two straight cases
  (rotate around the grandparent, recolor parent black and grandparent red)
  and two zig-zag cases (rotate around the parent, refocus on the old
  parent);
* no grandparent frame: both `IsLeftChild(node->parent)` and
  `IsRightChild(node->parent)` are false, so the source falls into its final
  `else` (`LeftRotate(node->parent); node = node->left`), which dereferences
  `parent->right` — a crash when the node is a left child with a null
  sibling. -/
def InsertFixUpLoop : Nat → RBTNode → List Frame → Option (RBTNode × List Frame)
  | 0, _, _ => none
  | _ + 1, .nil, _ => none
  | _ + 1, s, [] => some (s, [])
  | fuel + 1, .node sd sc si sl sr, f1 :: rest =>
      if f1.color = .COLOR_RED then
        match rest with
        | f2 :: rest2 =>
          if isRed f2.sibling then
            -- Case 1: parent and uncle both red - recolor and move up
            InsertFixUpLoop fuel
              (nodeOfFrame { f2 with color := .COLOR_RED, sibling := blackenRoot f2.sibling }
                (nodeOfFrame { f1 with color := .COLOR_BLACK } (.node sd sc si sl sr)))
              rest2
          else
            match f1.dir, f2.dir with
            | .left, .left =>
              -- RightRotate(grandparent); parent -> BLACK; grandparent -> RED
              InsertFixUpLoop fuel (.node sd sc si sl sr)
                (⟨.left, f1.data, .COLOR_BLACK, f1.IsNullNode,
                   .node f2.data .COLOR_RED f2.IsNullNode f1.sibling f2.sibling⟩ :: rest2)
            | .right, .right =>
              -- LeftRotate(grandparent); parent -> BLACK; grandparent -> RED
              InsertFixUpLoop fuel (.node sd sc si sl sr)
                (⟨.right, f1.data, .COLOR_BLACK, f1.IsNullNode,
                   .node f2.data .COLOR_RED f2.IsNullNode f2.sibling f1.sibling⟩ :: rest2)
            | .left, .right =>
              -- RightRotate(node->parent); node = node->right
              InsertFixUpLoop fuel (.node f1.data f1.color f1.IsNullNode sr f1.sibling)
                (⟨.right, sd, sc, si, sl⟩ :: f2 :: rest2)
            | .right, .left =>
              -- LeftRotate(node->parent); node = node->left
              InsertFixUpLoop fuel (.node f1.data f1.color f1.IsNullNode f1.sibling sl)
                (⟨.left, sd, sc, si, sr⟩ :: f2 :: rest2)
        | [] =>
          -- GetUncle = nullptr, IsLeftChild/IsRightChild of the parent are
          -- false: final else of the source, LeftRotate(node->parent);
          -- node = node->left
          match f1.dir with
          | .right =>
            InsertFixUpLoop fuel (.node f1.data f1.color f1.IsNullNode f1.sibling sl)
              [⟨.left, sd, sc, si, sr⟩]
          | .left =>
            match f1.sibling with
            | .nil => none  -- LeftRotate dereferences the null right child
            | .node bd bc bi bl br =>
              InsertFixUpLoop fuel sl
                [⟨.left, sd, sc, si, sr⟩, ⟨.left, f1.data, f1.color, f1.IsNullNode, bl⟩,
                 ⟨.left, bd, bc, bi, br⟩]
      else some (.node sd sc si sl sr, f1 :: rest)

/-- `RedBlackTree::InsertFixUp`: run the repair loop on the freshly inserted
node, rebuild the tree, and reassert `root->color = COLOR_BLACK` (line 144).
The fuel `ctx.length + 2` is an iteration bound proved sufficient for every
reachable tree. -/
def InsertFixUp (s : RBTNode) (ctx : List Frame) : Option RBTNode :=
  match InsertFixUpLoop (ctx.length + 2) s ctx with
  | none => none
  | some (s2, ctx2) => setRootBlack (plug s2 ctx2)

/-- `RedBlackTree::Insert`.  The result is `none` for a crash of the C++
code, otherwise `some (t, err?)` with the post-state of the tree object and
the optionally thrown error: the duplicate check (`Contains`) happens before
any mutation, so on a duplicate the state is returned unchanged together with
the `invalid_argument` message; otherwise a red node is allocated,
`BasicInsert` places it, `InsertFixUp` repairs the tree, the root is
re-blackened (line 83) and `numItems` is incremented. -/
def RedBlackTree.Insert (t : RedBlackTree) (newData : Int) :
    Option (RedBlackTree × Option String) :=
  if t.Contains newData then
    some (t, some "Duplicate entry not allowed.")
  else
    let newNode : RBTNode := .node newData .COLOR_RED false .nil .nil
    let ctx := BasicInsertCtx newData t.root
    match InsertFixUp newNode ctx with
    | none => none
    | some fixedRoot =>
      match setRootBlack fixedRoot with
      | none => none
      | some newRoot => some (⟨newRoot, t.numItems + 1⟩, none)

/-- The trees reachable by the public interface: the three constructors and
successful `Insert` calls. -/
inductive Reachable : RedBlackTree → Prop where
  | empty : Reachable RedBlackTree.mkEmpty
  | single (d : Int) : Reachable (RedBlackTree.mkSingle d)
  | copy {t : RedBlackTree} : Reachable t → Reachable t.copyCtor
  | insert {t t2 : RedBlackTree} {d : Int} :
      Reachable t → t.Insert d = some (t2, none) → Reachable t2

/-! ### Views of the zipper context used by the proofs -/

/-- Root color of a (possibly null) node; a null pointer counts as black. -/
def rootColor : RBTNode → Color
  | .nil => .COLOR_BLACK
  | .node _ c _ _ _ => c

/-- Keys contributed by a frame on the left of the hole. -/
def frameKL (f : Frame) : List Int :=
  match f.dir with
  | .left => []
  | .right => keysOf f.sibling ++ [f.data]

/-- Keys contributed by a frame on the right of the hole. -/
def frameKR (f : Frame) : List Int :=
  match f.dir with
  | .left => f.data :: keysOf f.sibling
  | .right => []

/-- Keys of the whole context to the left of the hole. -/
def ctxKL : List Frame → List Int
  | [] => []
  | f :: rest => ctxKL rest ++ frameKL f

/-- Keys of the whole context to the right of the hole. -/
def ctxKR : List Frame → List Int
  | [] => []
  | f :: rest => frameKR f ++ ctxKR rest

/-! ### Black height, red-red freedom, and color sanity through the context -/

/-- Black height of the full tree obtained by plugging a subtree of black
height `n` into the context; `none` when some sibling or join violates
black-height uniformity. -/
def ctxBH : List Frame → Nat → Option Nat
  | [], n => some n
  | f :: rest, n =>
      match bh f.sibling with
      | some m => if m = n then ctxBH rest (n + bIncr f.color) else none
      | none => none

/-- Red-red freedom of the context relative to the root color `c` of the
subtree in the hole: every sibling is internally red-red free, a red frame
has a non-red hole and a non-red sibling, and the rest of the context is fine
relative to the frame's own color. -/
def ctxRR : Color → List Frame → Bool
  | _, [] => true
  | c, f :: rest =>
      noRR f.sibling &&
      (if f.color = .COLOR_RED then !(c == Color.COLOR_RED) && !isRed f.sibling else true) &&
      ctxRR f.color rest

/-- All frames of the context are colored red or black and all siblings are
free of the sentinel color. -/
def ctxNoD : List Frame → Bool
  | [] => true
  | f :: rest =>
      (f.color = .COLOR_RED || f.color = .COLOR_BLACK) && noDColor f.sibling && ctxNoD rest

/-- The outermost frame of a nonempty context (the tree root during the
fix-up loop) is black. -/
def lastBlack : List Frame → Bool
  | [] => true
  | [f] => f.color = .COLOR_BLACK
  | _ :: f2 :: rest => lastBlack (f2 :: rest)

/-- The invariant maintained at the head of each iteration of the repair
loop: the current node is red and internally valid, its context joins up
with consistent black heights, the only possible red-red violation in the
whole tree is between the current node and its parent frame, no sentinel
colors occur anywhere, and the tree root (outermost frame) is black. -/
structure LoopInv (s : RBTNode) (ctx : List Frame) (n : Nat) : Prop where
  red : isRed s = true
  nrr : noRR s = true
  hbh : bh s = some n
  cbh : (ctxBH ctx n).isSome
  crr : ctxRR .COLOR_BLACK ctx = true
  ndc : noDColor s = true
  cnd : ctxNoD ctx = true
  lastb : lastBlack ctx = true

/-- What the loop guarantees about its final zipper, relative to the zipper
it started from. -/
def FixupPost (s : RBTNode) (ctx : List Frame) (s2 : RBTNode) (ctx2 : List Frame) : Prop :=
  keysOf (plug s2 ctx2) = keysOf (plug s ctx) ∧
  noRR (plug s2 ctx2) = true ∧
  (bh (plug s2 ctx2)).isSome = true ∧
  noDColor (plug s2 ctx2) = true ∧
  plug s2 ctx2 ≠ .nil

/-- The data-model invariants of §3 (BST ordering with distinct keys, black
root, no red-red edge, uniform black heights, no sentinel color, and the
count matching the reachable nodes). -/
structure WF (t : RedBlackTree) : Prop where
  hbst : bst none none t.root = true
  hroot : rootBlackB t.root = true
  hnrr : noRR t.root = true
  hbh2 : (bh t.root).isSome = true
  hnd : noDColor t.root = true
  hcount : t.numItems = (keysOf t.root).length

/-! ### Heap-level model of the deep copy

`RedBlackTree::CopyOf` allocates fresh nodes and rewires `parent` back
pointers; to reason about storage independence and back-pointer consistency
the copy is also modelled on an explicit heap of addressed cells. -/

/-- One allocated `RBTNode` cell: its fields, with child/parent pointers as
heap addresses (`none` = null). -/
structure HNode where
  data : Int
  color : Color
  IsNullNode : Bool
  left : Option Nat
  right : Option Nat
  parent : Option Nat
deriving DecidableEq, Repr

/-- A heap: the cell at address `i` is the `i`-th list entry; allocation
appends at the end. -/
abbrev Heap := List HNode

/-- Update the cell at address `i` (no-op on a dangling address). -/
def setAtH (h : Heap) (i : Nat) (f : HNode → HNode) : Heap :=
  match h[i]? with
  | some x => h.set i (f x)
  | none => h

/-- `RedBlackTree::CopyOf` on the heap: allocate the copy cell (fresh address
at the end of the heap; pointer fields start null — modelled from the spec,
since `RedBlackTree.h` with the `RBTNode` member defaults is not among the
sources), copy `data`/`color`/`IsNullNode`, recursively copy the left child
and store `copy->left`, then the right child and `copy->right`, then set the
children's `parent` back-references to the copy, exactly as lines 53-64 of
the source. -/
def CopyOfH : RBTNode → Heap → Option Nat × Heap
  | .nil, h => (none, h)
  | .node d c i l r, h =>
      let addr := h.length
      let h1 := h ++ [⟨d, c, i, none, none, none⟩]
      let res1 := CopyOfH l h1
      let h3 := setAtH res1.2 addr (fun nd => { nd with left := res1.1 })
      let res2 := CopyOfH r h3
      let h5 := setAtH res2.2 addr (fun nd => { nd with right := res2.1 })
      let h6 := match res1.1 with
        | some a => setAtH h5 a (fun nd => { nd with parent := some addr })
        | none => h5
      let h7 := match res2.1 with
        | some a => setAtH h6 a (fun nd => { nd with parent := some addr })
        | none => h6
      (some addr, h7)

/-- The exact block of cells `CopyOfH t` builds when the heap has length
`base`; `par` is the `parent` field of the block's top cell (left child
block at `base + 1`, right child block after it, preorder). -/
def layoutCopy : RBTNode → Nat → Option Nat → List HNode
  | .nil, _, _ => []
  | .node d c i l r, base, par =>
      ⟨d, c, i,
        (if l = .nil then none else some (base + 1)),
        (if r = .nil then none else some (base + 1 + countNodes l)),
        par⟩ ::
      (layoutCopy l (base + 1) (some base) ++
       layoutCopy r (base + 1 + countNodes l) (some base))

/-- Back-reference consistency of one cell: if it has a parent pointer, the
parent exists and points back to it through exactly one of `left`/`right`. -/
def pcAt (h : Heap) (c : Nat) : Bool :=
  match h[c]? with
  | none => true
  | some nc =>
      match nc.parent with
      | none => true
      | some p =>
          match h[p]? with
          | none => false
          | some np => ((np.left == some c) != (np.right == some c))

/-- Parent back-reference consistency of a whole heap (§3: if
`child.parent == p` then `p.left == child` or `p.right == child`,
exclusively). -/
def parentConsistentB (h : Heap) : Bool :=
  (List.range h.length).all (pcAt h)

theorem isRed_eq_rootColor (t : RBTNode) :
    isRed t = (rootColor t == Color.COLOR_RED) := by
  cases t with
  | nil => rfl
  | node d c i l r => cases c <;> rfl

theorem isRed_false_of_black (t : RBTNode) (h : rootColor t = .COLOR_BLACK) :
    isRed t = false := by
  rw [isRed_eq_rootColor, h]; rfl

theorem noRR_node {d : Int} {c : Color} {i : Bool} {l r : RBTNode} :
    noRR (.node d c i l r) = true ↔
      (noRR l = true ∧ noRR r = true ∧
        (c = .COLOR_RED → isRed l = false ∧ isRed r = false)) := by
  by_cases hc : c = Color.COLOR_RED <;>
    simp [noRR, hc, Bool.and_eq_true, Bool.not_eq_true', and_assoc]

theorem bh_node {d : Int} {c : Color} {i : Bool} {l r : RBTNode} {k : Nat} :
    bh (.node d c i l r) = some k ↔
      ∃ m, bh l = some m ∧ bh r = some m ∧ k = m + bIncr c := by
  cases hl : bh l with
  | none => simp [bh, hl]
  | some m =>
    cases hr : bh r with
    | none => simp [bh, hl, hr]
    | some n =>
      by_cases hmn : m = n
      · subst hmn
        simp only [bh, hl, hr, eq_self_iff_true, if_true]
        constructor
        · intro hk
          rw [Option.some_inj] at hk
          exact ⟨m, rfl, rfl, hk.symm⟩
        · rintro ⟨m2, hm2, -, rfl⟩
          rw [Option.some_inj] at hm2
          subst hm2
          rfl
      · simp only [bh, hl, hr, if_neg hmn]
        constructor
        · intro h; cases h
        · rintro ⟨m2, hm2, hm2r, -⟩
          rw [Option.some_inj] at hm2 hm2r
          exact absurd (hm2.trans hm2r.symm) hmn

theorem bh_node_red {d : Int} {i : Bool} {l r : RBTNode} {k : Nat} :
    bh (.node d .COLOR_RED i l r) = some k ↔
      (bh l = some k ∧ bh r = some k) := by
  rw [bh_node]
  constructor
  · rintro ⟨m, hl, hr, rfl⟩
    simpa [bIncr] using ⟨hl, hr⟩
  · rintro ⟨hl, hr⟩
    exact ⟨k, hl, hr, by simp [bIncr]⟩

theorem noDColor_node {d : Int} {c : Color} {i : Bool} {l r : RBTNode} :
    noDColor (.node d c i l r) = true ↔
      ((c = .COLOR_RED ∨ c = .COLOR_BLACK) ∧ noDColor l = true ∧ noDColor r = true) := by
  simp [noDColor, Bool.and_eq_true]
  tauto

theorem blackenRoot_keys (t : RBTNode) : keysOf (blackenRoot t) = keysOf t := by
  cases t <;> simp [blackenRoot, keysOf]

theorem blackenRoot_noRR {t : RBTNode} (h : noRR t = true) :
    noRR (blackenRoot t) = true := by
  cases t with
  | nil => exact h
  | node d c i l r =>
    rw [noRR_node] at h
    show noRR (.node d .COLOR_BLACK i l r) = true
    rw [noRR_node]
    exact ⟨h.1, h.2.1, by intro hc; cases hc⟩

theorem blackenRoot_noD {t : RBTNode} (h : noDColor t = true) :
    noDColor (blackenRoot t) = true := by
  cases t with
  | nil => exact h
  | node d c i l r =>
    rw [noDColor_node] at h
    show noDColor (.node d .COLOR_BLACK i l r) = true
    rw [noDColor_node]
    exact ⟨Or.inr rfl, h.2.1, h.2.2⟩

theorem blackenRoot_bh {t : RBTNode} {n : Nat} (h : bh t = some n) :
    (bh (blackenRoot t)).isSome := by
  cases t with
  | nil => simp [blackenRoot, bh]
  | node d c i l r =>
    rw [bh_node] at h
    obtain ⟨m, hl, hr, rfl⟩ := h
    have : bh (blackenRoot (.node d c i l r)) = some (m + 1) := by
      rw [blackenRoot, bh_node]
      exact ⟨m, hl, hr, rfl⟩
    rw [this]; rfl

theorem blackenRoot_bh_red {t : RBTNode} {n : Nat} (hred : isRed t = true)
    (h : bh t = some n) : bh (blackenRoot t) = some (n + 1) := by
  cases t with
  | nil => cases hred
  | node d c i l r =>
    cases c with
    | COLOR_RED =>
      rw [bh_node_red] at h
      rw [blackenRoot, bh_node]
      exact ⟨n, h.1, h.2, rfl⟩
    | COLOR_BLACK => cases hred
    | COLOR_DOUBLE_BLACK => cases hred

theorem setRootBlack_eq {t : RBTNode} (h : t ≠ .nil) :
    setRootBlack t = some (blackenRoot t) := by
  cases t with
  | nil => exact absurd rfl h
  | node d c i l r => rfl

theorem rootBlackB_blackenRoot (t : RBTNode) : rootBlackB (blackenRoot t) = true := by
  cases t <;> simp [blackenRoot, rootBlackB]

/-! ### Basic facts about the tree predicates, plugging, and keys -/

theorem plug_append (c1 c2 : List Frame) (s : RBTNode) :
    plug s (c1 ++ c2) = plug (plug s c1) c2 := by
  induction c1 generalizing s with
  | nil => rfl
  | cons f rest ih => simp [plug, ih]

theorem keys_nodeOfFrame (f : Frame) (s : RBTNode) :
    keysOf (nodeOfFrame f s) = frameKL f ++ keysOf s ++ frameKR f := by
  obtain ⟨dir, d, c, i, sib⟩ := f
  cases dir <;> simp [nodeOfFrame, frameKL, frameKR, keysOf]

theorem keys_plug (ctx : List Frame) (s : RBTNode) :
    keysOf (plug s ctx) = ctxKL ctx ++ keysOf s ++ ctxKR ctx := by
  induction ctx generalizing s with
  | nil => simp [plug, ctxKL, ctxKR]
  | cons f rest ih =>
    simp [plug, ih, keys_nodeOfFrame, ctxKL, ctxKR]

theorem bh_nodeOfFrame {f : Frame} {s : RBTNode} {n : Nat}
    (hs : bh s = some n) (hsib : bh f.sibling = some n) :
    bh (nodeOfFrame f s) = some (n + bIncr f.color) := by
  obtain ⟨dir, d, c, i, sib⟩ := f
  cases dir <;>
    · rw [nodeOfFrame, bh_node]
      exact ⟨n, by simp_all, by simp_all, rfl⟩

theorem bh_nodeOfFrame_none {f : Frame} {s : RBTNode}
    (h : ∀ n, ¬(bh s = some n ∧ bh f.sibling = some n)) :
    bh (nodeOfFrame f s) = none := by
  obtain ⟨dir, d, c, i, sib⟩ := f
  cases hs : bh s with
  | none => cases dir <;> simp [nodeOfFrame, bh, hs]
  | some m =>
    cases hsib : bh sib with
    | none => cases dir <;> simp [nodeOfFrame, bh, hs, hsib]
    | some m2 =>
      have hne : m ≠ m2 := by
        rintro rfl
        exact h m ⟨hs, hsib⟩
      have hne2 : m2 ≠ m := hne.symm
      cases dir <;> simp [nodeOfFrame, bh, hs, hsib, hne, hne2]

theorem bh_plug_none (ctx : List Frame) (s : RBTNode) (h : bh s = none) :
    bh (plug s ctx) = none := by
  induction ctx generalizing s with
  | nil => exact h
  | cons f rest ih =>
    rw [plug]
    exact ih _ (bh_nodeOfFrame_none (fun n hn => by rw [h] at hn; cases hn.1))

theorem bh_plug (ctx : List Frame) (s : RBTNode) (n : Nat) (hs : bh s = some n) :
    bh (plug s ctx) = ctxBH ctx n := by
  induction ctx generalizing s n with
  | nil => exact hs
  | cons f rest ih =>
    rw [plug, ctxBH]
    cases hsib : bh f.sibling with
    | none =>
      exact bh_plug_none _ _ (bh_nodeOfFrame_none
        (fun m hm => by rw [hsib] at hm; cases hm.2))
    | some m =>
      by_cases hmn : m = n
      · subst hmn
        simp only [if_pos rfl]
        exact ih _ _ (bh_nodeOfFrame hs hsib)
      · simp only [if_neg hmn]
        exact bh_plug_none _ _ (bh_nodeOfFrame_none (fun m2 hm => by
          rw [hs] at hm; rw [hsib] at hm
          obtain ⟨h1, h2⟩ := hm
          cases h1; cases h2; exact hmn rfl))

theorem noRR_nodeOfFrame {f : Frame} {s : RBTNode} :
    noRR (nodeOfFrame f s) = true ↔
      (noRR s = true ∧ noRR f.sibling = true ∧
        (f.color = .COLOR_RED → isRed s = false ∧ isRed f.sibling = false)) := by
  obtain ⟨dir, d, c, i, sib⟩ := f
  cases dir <;> rw [nodeOfFrame, noRR_node] <;> tauto

theorem rootColor_nodeOfFrame (f : Frame) (s : RBTNode) :
    rootColor (nodeOfFrame f s) = f.color := by
  obtain ⟨dir, d, c, i, sib⟩ := f
  cases dir <;> rfl

theorem noRR_plug (ctx : List Frame) (s : RBTNode) :
    noRR (plug s ctx) = true ↔
      (noRR s = true ∧ ctxRR (rootColor s) ctx = true) := by
  induction ctx generalizing s with
  | nil => simp [plug, ctxRR]
  | cons f rest ih =>
    rw [plug, ih, noRR_nodeOfFrame, rootColor_nodeOfFrame]
    rw [ctxRR]
    by_cases hc : f.color = Color.COLOR_RED <;>
      simp [hc, Bool.and_eq_true, Bool.not_eq_true', isRed_eq_rootColor s,
        Bool.not_eq_true, and_assoc]

theorem noD_nodeOfFrame {f : Frame} {s : RBTNode} :
    noDColor (nodeOfFrame f s) = true ↔
      ((f.color = .COLOR_RED ∨ f.color = .COLOR_BLACK) ∧
        noDColor s = true ∧ noDColor f.sibling = true) := by
  obtain ⟨dir, d, c, i, sib⟩ := f
  cases dir <;> rw [nodeOfFrame, noDColor_node] <;> tauto

theorem noD_plug (ctx : List Frame) (s : RBTNode) :
    noDColor (plug s ctx) = true ↔
      (noDColor s = true ∧ ctxNoD ctx = true) := by
  induction ctx generalizing s with
  | nil => simp [plug, ctxNoD]
  | cons f rest ih =>
    rw [plug, ih, noD_nodeOfFrame, ctxNoD]
    simp [Bool.and_eq_true] <;> tauto

theorem lastBlack_cons (f : Frame) (rest : List Frame) :
    lastBlack (f :: rest) =
      (if rest.isEmpty then (f.color = .COLOR_BLACK : Bool) else lastBlack rest) := by
  cases rest <;> rfl

theorem lastBlack_tail {f : Frame} {rest : List Frame}
    (h : lastBlack (f :: rest) = true) : lastBlack rest = true := by
  cases rest with
  | nil => rfl
  | cons g rest2 => exact h

theorem lastBlack_append_singleton (l : List Frame) (f : Frame) :
    lastBlack (l ++ [f]) = (f.color = .COLOR_BLACK : Bool) := by
  induction l with
  | nil => rfl
  | cons g l2 ih =>
    cases l2 with
    | nil => simpa using ih
    | cons g2 l3 => simpa using ih

/-! ### BST bounds, sortedness, lookup -/

theorem bst_node {lo hi : Option Int} {d : Int} {c : Color} {i : Bool} {l r : RBTNode} :
    bst lo hi (.node d c i l r) = true ↔
      (oLt lo d = true ∧ oGt hi d = true ∧
        bst lo (some d) l = true ∧ bst (some d) hi r = true) := by
  simp [bst, Bool.and_eq_true, and_assoc]

theorem oLt_weaken {lo : Option Int} {d k : Int} (h : oLt lo d = true) (hdk : d < k) :
    oLt lo k = true := by
  cases lo with
  | none => rfl
  | some a =>
    simp only [oLt, decide_eq_true_eq] at h ⊢
    omega

theorem oGt_weaken {hi : Option Int} {d k : Int} (h : oGt hi d = true) (hkd : k < d) :
    oGt hi k = true := by
  cases hi with
  | none => rfl
  | some a =>
    simp only [oGt, decide_eq_true_eq] at h ⊢
    omega

theorem bst_mem_bounds {t : RBTNode} :
    ∀ {lo hi : Option Int} {k : Int}, bst lo hi t = true → k ∈ keysOf t →
      oLt lo k = true ∧ oGt hi k = true := by
  induction t with
  | nil => intro lo hi k _ hk; simp [keysOf] at hk
  | node d c i l r ihl ihr =>
    intro lo hi k hb hk
    rw [bst_node] at hb
    obtain ⟨h1, h2, h3, h4⟩ := hb
    simp only [keysOf, List.append_assoc, List.mem_append, List.mem_singleton] at hk
    rcases hk with hk | hk | hk
    · obtain ⟨hl, hr⟩ := ihl h3 hk
      refine ⟨hl, ?_⟩
      have hkd : k < d := by simpa [oGt] using hr
      exact oGt_weaken h2 hkd
    · subst hk; exact ⟨h1, h2⟩
    · obtain ⟨hl, hr⟩ := ihr h4 hk
      refine ⟨?_, hr⟩
      have hdk : d < k := by simpa [oLt] using hl
      exact oLt_weaken h1 hdk

theorem bst_pairwise {t : RBTNode} :
    ∀ {lo hi : Option Int}, bst lo hi t = true →
      List.Pairwise (· < ·) (keysOf t) := by
  induction t with
  | nil => intro lo hi _; simp [keysOf]
  | node d c i l r ihl ihr =>
    intro lo hi hb
    rw [bst_node] at hb
    obtain ⟨h1, h2, h3, h4⟩ := hb
    rw [keysOf, List.append_assoc, List.pairwise_append]
    refine ⟨ihl h3, ?_, ?_⟩
    · rw [List.singleton_append, List.pairwise_cons]
      refine ⟨?_, ihr h4⟩
      intro b hb2
      simpa [oLt] using (bst_mem_bounds h4 hb2).1
    · intro a ha b hb2
      have had : a < d := by simpa [oGt] using (bst_mem_bounds h3 ha).2
      rcases List.mem_cons.mp hb2 with rfl | hb3
      · exact had
      · have hdb : d < b := by simpa [oLt] using (bst_mem_bounds h4 hb3).1
        omega
    

theorem pairwise_bst {t : RBTNode} :
    ∀ {lo hi : Option Int}, List.Pairwise (· < ·) (keysOf t) →
      (∀ k ∈ keysOf t, oLt lo k = true) → (∀ k ∈ keysOf t, oGt hi k = true) →
      bst lo hi t = true := by
  induction t with
  | nil => intro lo hi _ _ _; rfl
  | node d c i l r ihl ihr =>
    intro lo hi hp hlo hhi
    have hdmem : d ∈ keysOf (RBTNode.node d c i l r) := by
      simp [keysOf]
    rw [keysOf, List.append_assoc, List.pairwise_append, List.singleton_append,
      List.pairwise_cons] at hp
    obtain ⟨hpl, ⟨hdr, hpr⟩, hcross⟩ := hp
    rw [bst_node]
    refine ⟨hlo _ hdmem, hhi _ hdmem, ?_, ?_⟩
    · refine ihl hpl (fun k hk => hlo k ?_) (fun k hk => ?_)
      · simp [keysOf, hk]
      · have : k < d := hcross k hk d (by simp)
        simpa [oGt] using this
    · refine ihr hpr (fun k hk => ?_) (fun k hk => hhi k ?_)
      · have : d < k := hdr k hk
        simpa [oLt] using this
      · simp [keysOf, hk]

theorem bst_nodup {t : RBTNode} {lo hi : Option Int} (h : bst lo hi t = true) :
    (keysOf t).Nodup :=
  (bst_pairwise h).imp (fun hlt => Int.ne_of_lt hlt)

theorem getNode_ne_nil_iff {k : Int} {t : RBTNode} :
    ∀ {lo hi : Option Int}, bst lo hi t = true →
      ((GetNode k t ≠ .nil) ↔ k ∈ keysOf t) := by
  induction t with
  | nil => intro lo hi _; simp [GetNode, keysOf]
  | node d c i l r ihl ihr =>
    intro lo hi hb
    rw [bst_node] at hb
    obtain ⟨h1, h2, h3, h4⟩ := hb
    by_cases hkd : k = d
    · subst hkd
      simp [GetNode, keysOf]
    · by_cases hlt : k < d
      · rw [GetNode, if_neg hkd, if_pos hlt, ihl h3]
        simp only [keysOf, List.append_assoc, List.mem_append, List.mem_singleton]
        constructor
        · exact fun h => Or.inl h
        · rintro (h | h | h)
          · exact h
          · exact absurd h hkd
          · have : d < k := by simpa [oLt] using (bst_mem_bounds h4 h).1
            omega
      · rw [GetNode, if_neg hkd, if_neg hlt, ihr h4]
        simp only [keysOf, List.append_assoc, List.mem_append, List.mem_singleton]
        constructor
        · exact fun h => Or.inr (Or.inr h)
        · rintro (h | h | h)
          · have : k < d := by simpa [oGt] using (bst_mem_bounds h3 h).2
            omega
          · exact absurd h hkd
          · exact h

theorem Contains_iff_mem {t : RedBlackTree} (h : bst none none t.root = true) (k : Int) :
    t.Contains k = true ↔ k ∈ keysOf t.root := by
  rw [RedBlackTree.Contains, decide_eq_true_eq]
  exact getNode_ne_nil_iff h

/-! ### BasicInsert -/

theorem plug_basicInsertCtx (nn : RBTNode) (d : Int) (t : RBTNode) :
    plug nn (BasicInsertCtx d t) = basicInsertT nn d t := by
  induction t with
  | nil => rfl
  | node cd cc ci cl cr ihl ihr =>
    rw [BasicInsertCtx, basicInsertT]
    by_cases h : d < cd
    · rw [if_pos h, if_pos h, plug_append, ihl]
      rfl
    · rw [if_neg h, if_neg h, plug_append, ihr]
      rfl

theorem mem_keys_basicInsertT (nn : RBTNode) (d k : Int) (t : RBTNode) :
    k ∈ keysOf (basicInsertT nn d t) ↔ (k ∈ keysOf nn ∨ k ∈ keysOf t) := by
  induction t with
  | nil => simp [basicInsertT, keysOf]
  | node cd cc ci cl cr ihl ihr =>
    rw [basicInsertT]
    by_cases h : d < cd <;> [rw [if_pos h]; rw [if_neg h]] <;>
      · simp only [keysOf, List.append_assoc, List.mem_append, List.mem_singleton, ihl, ihr]
        tauto

theorem length_keys_basicInsertT (nn : RBTNode) (d : Int) (t : RBTNode) :
    (keysOf (basicInsertT nn d t)).length = (keysOf nn).length + (keysOf t).length := by
  induction t with
  | nil => simp [basicInsertT, keysOf]
  | node cd cc ci cl cr ihl ihr =>
    rw [basicInsertT]
    by_cases h : d < cd <;> [rw [if_pos h]; rw [if_neg h]] <;>
      · simp only [keysOf, List.append_assoc, List.length_append, List.length_cons,
          List.length_singleton, ihl, ihr]
        omega

theorem isRed_basicInsertT_node {nn : RBTNode} {d cd : Int} {cc : Color} {ci : Bool}
    {cl cr : RBTNode} :
    isRed (basicInsertT nn d (.node cd cc ci cl cr)) = isRed (.node cd cc ci cl cr) := by
  rw [basicInsertT]
  split <;> cases cc <;> rfl

theorem bst_basicInsertT {nd : Int} {nc : Color} {ni : Bool} {t : RBTNode} :
    ∀ {lo hi : Option Int}, bst lo hi t = true → oLt lo nd = true → oGt hi nd = true →
      nd ∉ keysOf t →
      bst lo hi (basicInsertT (.node nd nc ni .nil .nil) nd t) = true := by
  induction t with
  | nil =>
    intro lo hi _ hlo hhi _
    rw [basicInsertT, bst_node]
    exact ⟨hlo, hhi, rfl, rfl⟩
  | node cd cc ci cl cr ihl ihr =>
    intro lo hi hb hlo hhi hmem
    rw [bst_node] at hb
    obtain ⟨h1, h2, h3, h4⟩ := hb
    simp only [keysOf, List.append_assoc, List.mem_append, List.mem_singleton] at hmem
    push_neg at hmem
    obtain ⟨hm1, hm2, hm3⟩ := hmem
    rw [basicInsertT]
    by_cases h : nd < cd
    · rw [if_pos h, bst_node]
      exact ⟨h1, h2, ihl h3 hlo (by simpa [oGt] using h) hm1, h4⟩
    · have hcd : cd < nd := by omega
      rw [if_neg h, bst_node]
      exact ⟨h1, h2, h3, ihr h4 (by simpa [oLt] using hcd) hhi hm3⟩

theorem bh_basicInsertT {nd : Int} {ni : Bool} {t : RBTNode} :
    ∀ {n : Nat}, bh t = some n →
      bh (basicInsertT (.node nd .COLOR_RED ni .nil .nil) nd t) = some n := by
  induction t with
  | nil =>
    intro n hn
    rw [bh] at hn
    rw [Option.some_inj] at hn
    subst hn
    rw [basicInsertT, bh_node_red]
    exact ⟨rfl, rfl⟩
  | node cd cc ci cl cr ihl ihr =>
    intro n hn
    rw [bh_node] at hn
    obtain ⟨m, hl, hr, rfl⟩ := hn
    rw [basicInsertT]
    by_cases h : nd < cd
    · rw [if_pos h, bh_node]
      exact ⟨m, ihl hl, hr, rfl⟩
    · rw [if_neg h, bh_node]
      exact ⟨m, hl, ihr hr, rfl⟩

theorem isRed_basicInsertT_of_black {nd : Int} {ni : Bool} {t : RBTNode}
    (h : isRed t = false) :
    isRed (basicInsertT (.node nd .COLOR_BLACK ni .nil .nil) nd t) = false := by
  cases t with
  | nil => rfl
  | node cd cc ci cl cr => rw [isRed_basicInsertT_node]; exact h

theorem noRR_basicInsertT_black {nd : Int} {ni : Bool} {t : RBTNode}
    (h : noRR t = true) :
    noRR (basicInsertT (.node nd .COLOR_BLACK ni .nil .nil) nd t) = true := by
  induction t with
  | nil =>
    rw [basicInsertT, noRR_node]
    exact ⟨rfl, rfl, by intro hc; cases hc⟩
  | node cd cc ci cl cr ihl ihr =>
    rw [noRR_node] at h
    obtain ⟨h1, h2, h3⟩ := h
    rw [basicInsertT]
    by_cases hlt : nd < cd
    · rw [if_pos hlt, noRR_node]
      refine ⟨ihl h1, h2, fun hc => ⟨isRed_basicInsertT_of_black (h3 hc).1, (h3 hc).2⟩⟩
    · rw [if_neg hlt, noRR_node]
      refine ⟨h1, ihr h2, fun hc => ⟨(h3 hc).1, isRed_basicInsertT_of_black (h3 hc).2⟩⟩

theorem noD_basicInsertT {nd : Int} {nc : Color} {ni : Bool} {t : RBTNode}
    (hnc : nc = .COLOR_RED ∨ nc = .COLOR_BLACK) (h : noDColor t = true) :
    noDColor (basicInsertT (.node nd nc ni .nil .nil) nd t) = true := by
  induction t with
  | nil =>
    rw [basicInsertT, noDColor_node]
    exact ⟨hnc, rfl, rfl⟩
  | node cd cc ci cl cr ihl ihr =>
    rw [noDColor_node] at h
    obtain ⟨h1, h2, h3⟩ := h
    rw [basicInsertT]
    by_cases hlt : nd < cd
    · rw [if_pos hlt, noDColor_node]
      exact ⟨h1, ihl h2, h3⟩
    · rw [if_neg hlt, noDColor_node]
      exact ⟨h1, h2, ihr h3⟩

theorem lastBlack_basicInsertCtx {d : Int} {t : RBTNode} (h : rootBlackB t = true) :
    lastBlack (BasicInsertCtx d t) = true := by
  cases t with
  | nil => rfl
  | node cd cc ci cl cr =>
    rw [BasicInsertCtx]
    by_cases hlt : d < cd
    · rw [if_pos hlt, lastBlack_append_singleton]
      exact h
    · rw [if_neg hlt, lastBlack_append_singleton]
      exact h

/-! ### Min and Max -/

theorem minFrom_spec {l : RBTNode} :
    ∀ {d : Int} {lo : Option Int}, bst lo (some d) l = true →
      (minFrom d l ∈ d :: keysOf l ∧ ∀ k ∈ d :: keysOf l, minFrom d l ≤ k) := by
  induction l with
  | nil =>
    intro d lo _
    refine ⟨by simp [minFrom], ?_⟩
    intro k hk
    simp only [keysOf, minFrom] at hk ⊢
    rw [List.mem_singleton] at hk
    omega
  | node d2 c2 i2 l2 r2 ihl ihr =>
    intro d lo hb
    rw [bst_node] at hb
    obtain ⟨h1, h2, h3, h4⟩ := hb
    have hd2d : d2 < d := by simpa [oGt] using h2
    obtain ⟨ihmem, ihle⟩ := ihl h3
    rw [minFrom]
    constructor
    · rcases List.mem_cons.mp ihmem with he | he
      · simp [keysOf, he]
      · simp [keysOf, he]
    · intro k hk
      have hmin_le_d2 : minFrom d2 l2 ≤ d2 := ihle d2 (List.mem_cons_self _ _)
      simp only [keysOf, List.append_assoc, List.mem_cons, List.mem_append,
        List.mem_singleton, List.mem_nil_iff, or_false] at hk
      rcases hk with rfl | hk | rfl | hk
      · omega
      · exact ihle k (List.mem_cons_of_mem _ hk)
      · exact hmin_le_d2
      · have : d2 < k := by simpa [oLt] using (bst_mem_bounds h4 hk).1
        omega

theorem maxFrom_spec {r : RBTNode} :
    ∀ {d : Int} {hi : Option Int}, bst (some d) hi r = true →
      (maxFrom d r ∈ d :: keysOf r ∧ ∀ k ∈ d :: keysOf r, k ≤ maxFrom d r) := by
  induction r with
  | nil =>
    intro d hi _
    refine ⟨by simp [maxFrom], ?_⟩
    intro k hk
    simp only [keysOf, maxFrom] at hk ⊢
    rw [List.mem_singleton] at hk
    omega
  | node d2 c2 i2 l2 r2 ihl ihr =>
    intro d hi hb
    rw [bst_node] at hb
    obtain ⟨h1, h2, h3, h4⟩ := hb
    have hdd2 : d < d2 := by simpa [oLt] using h1
    obtain ⟨ihmem, ihle⟩ := ihr h4
    rw [maxFrom]
    constructor
    · rcases List.mem_cons.mp ihmem with he | he
      · simp [keysOf, he]
      · simp [keysOf, he]
    · intro k hk
      have hd2_le_max : d2 ≤ maxFrom d2 r2 := ihle d2 (List.mem_cons_self _ _)
      simp only [keysOf, List.append_assoc, List.mem_cons, List.mem_append,
        List.mem_singleton, List.mem_nil_iff, or_false] at hk
      rcases hk with rfl | hk | rfl | hk
      · omega
      · have : k < d2 := by simpa [oGt] using (bst_mem_bounds h3 hk).2
        omega
      · exact hd2_le_max
      · exact ihle k (List.mem_cons_of_mem _ hk)

theorem GetMin_spec {t : RedBlackTree} (hb : bst none none t.root = true)
    (hne : t.root ≠ .nil) :
    ∃ m, t.GetMin = .ok m ∧ m ∈ keysOf t.root ∧ ∀ k ∈ keysOf t.root, m ≤ k := by
  match ht : t.root with
  | .nil => exact absurd ht hne
  | .node d c i l r =>
    rw [ht] at hb
    rw [bst_node] at hb
    obtain ⟨-, -, h3, h4⟩ := hb
    obtain ⟨hmem, hle⟩ := minFrom_spec h3
    refine ⟨minFrom d l, ?_, ?_, ?_⟩
    · rw [RedBlackTree.GetMin, ht]
    · rcases List.mem_cons.mp hmem with he | he
      · simp [keysOf, he]
      · simp [keysOf, he]
    · intro k hk
      simp only [keysOf, List.append_assoc, List.mem_append, List.mem_singleton] at hk
      rcases hk with hk | hk | hk
      · exact hle k (List.mem_cons_of_mem _ hk)
      · subst hk; exact hle k (List.mem_cons_self _ _)
      · have hdk : d < k := by simpa [oLt] using (bst_mem_bounds h4 hk).1
        have : minFrom d l ≤ d := hle d (List.mem_cons_self _ _)
        omega

theorem GetMax_spec {t : RedBlackTree} (hb : bst none none t.root = true)
    (hne : t.root ≠ .nil) :
    ∃ m, t.GetMax = .ok m ∧ m ∈ keysOf t.root ∧ ∀ k ∈ keysOf t.root, k ≤ m := by
  match ht : t.root with
  | .nil => exact absurd ht hne
  | .node d c i l r =>
    rw [ht] at hb
    rw [bst_node] at hb
    obtain ⟨-, -, h3, h4⟩ := hb
    obtain ⟨hmem, hle⟩ := maxFrom_spec h4
    refine ⟨maxFrom d r, ?_, ?_, ?_⟩
    · rw [RedBlackTree.GetMax, ht]
    · rcases List.mem_cons.mp hmem with he | he
      · simp [keysOf, he]
      · simp [keysOf, he]
    · intro k hk
      simp only [keysOf, List.append_assoc, List.mem_append, List.mem_singleton] at hk
      rcases hk with hk | hk | hk
      · have hkd : k < d := by simpa [oGt] using (bst_mem_bounds h3 hk).2
        have : d ≤ maxFrom d r := hle d (List.mem_cons_self _ _)
        omega
      · subst hk; exact hle k (List.mem_cons_self _ _)
      · exact hle k (List.mem_cons_of_mem _ hk)

/-! ### The fix-up loop: invariant and step lemmas -/

theorem isRed_eq_true_iff {s : RBTNode} :
    isRed s = true ↔ ∃ d i l r, s = .node d .COLOR_RED i l r := by
  cases s with
  | nil => simp [isRed]
  | node d c i l r => cases c <;> simp [isRed]

theorem ctxRR_cons {c : Color} {f : Frame} {rest : List Frame} :
    ctxRR c (f :: rest) = true ↔
      (noRR f.sibling = true ∧
        (f.color = .COLOR_RED → (¬ c = .COLOR_RED ∧ isRed f.sibling = false)) ∧
        ctxRR f.color rest = true) := by
  rw [ctxRR]
  by_cases hc : f.color = Color.COLOR_RED <;>
    simp [hc, Bool.and_eq_true, Bool.not_eq_true', beq_iff_eq, and_assoc]

theorem ctxBH_cons_isSome {f : Frame} {rest : List Frame} {n : Nat} :
    (ctxBH (f :: rest) n).isSome = true ↔
      (bh f.sibling = some n ∧ (ctxBH rest (n + bIncr f.color)).isSome = true) := by
  rw [ctxBH]
  cases hs : bh f.sibling with
  | none => simp
  | some m =>
    by_cases hmn : m = n
    · subst hmn; simp
    · simp [hmn]

theorem ctxNoD_cons {f : Frame} {rest : List Frame} :
    ctxNoD (f :: rest) = true ↔
      ((f.color = .COLOR_RED ∨ f.color = .COLOR_BLACK) ∧ noDColor f.sibling = true ∧
        ctxNoD rest = true) := by
  rw [ctxNoD]
  simp [Bool.and_eq_true] <;> tauto

theorem color_black_of_not_red {c : Color} (h1 : ¬ c = Color.COLOR_RED)
    (h2 : c = .COLOR_RED ∨ c = .COLOR_BLACK) : c = .COLOR_BLACK := by
  tauto

theorem plug_ne_nil {s : RBTNode} (ctx : List Frame) (hs : s ≠ .nil) :
    plug s ctx ≠ .nil := by
  induction ctx generalizing s with
  | nil => exact hs
  | cons f rest ih =>
    rw [plug]
    apply ih
    obtain ⟨dir, d, c, i, sib⟩ := f
    cases dir <;> simp [nodeOfFrame]

theorem fixup_exit_post {s : RBTNode} {ctx : List Frame} {n : Nat}
    (inv : LoopInv s ctx n)
    (hexit : ctx = [] ∨ ∃ f1 rest, ctx = f1 :: rest ∧ ¬ f1.color = Color.COLOR_RED) :
    FixupPost s ctx s ctx := by
  obtain ⟨d, i, l, r, rfl⟩ := isRed_eq_true_iff.mp inv.red
  refine ⟨rfl, ?_, ?_, ?_, ?_⟩
  · rw [noRR_plug]
    refine ⟨inv.nrr, ?_⟩
    rcases hexit with rfl | ⟨f1, rest, rfl, hf1⟩
    · rfl
    · rw [ctxRR_cons]
      have h := ctxRR_cons.mp inv.crr
      exact ⟨h.1, fun hc => absurd hc hf1, h.2.2⟩
  · rw [bh_plug ctx _ n inv.hbh]
    exact inv.cbh
  · rw [noD_plug]
    exact ⟨inv.ndc, inv.cnd⟩
  · exact plug_ne_nil ctx (by simp)

/-! Step equations for the loop, one per branch of the C++ `while` body. -/

theorem loop_ctx_nil {fuel : Nat} {sd : Int} {sc : Color} {si : Bool} {sl sr : RBTNode} :
    InsertFixUpLoop (fuel + 1) (.node sd sc si sl sr) [] =
      some (.node sd sc si sl sr, []) := rfl

theorem loop_exit_nonred {fuel : Nat} {sd : Int} {sc : Color} {si : Bool} {sl sr : RBTNode}
    {f1 : Frame} {rest : List Frame} (h : ¬ f1.color = Color.COLOR_RED) :
    InsertFixUpLoop (fuel + 1) (.node sd sc si sl sr) (f1 :: rest) =
      some (.node sd sc si sl sr, f1 :: rest) := by
  conv_lhs => rw [InsertFixUpLoop.eq_def]
  simp [h]

theorem loop_case1 {fuel : Nat} {sd : Int} {sc : Color} {si : Bool} {sl sr : RBTNode}
    {f1 f2 : Frame} {rest2 : List Frame} (hred : f1.color = Color.COLOR_RED)
    (huncle : isRed f2.sibling = true) :
    InsertFixUpLoop (fuel + 1) (.node sd sc si sl sr) (f1 :: f2 :: rest2) =
      InsertFixUpLoop fuel
        (nodeOfFrame { f2 with color := .COLOR_RED, sibling := blackenRoot f2.sibling }
          (nodeOfFrame { f1 with color := .COLOR_BLACK } (.node sd sc si sl sr)))
        rest2 := by
  conv_lhs => rw [InsertFixUpLoop.eq_def]
  simp [hred, huncle]

theorem loop_LL {fuel : Nat} {sd : Int} {sc : Color} {si : Bool} {sl sr : RBTNode}
    {f1 f2 : Frame} {rest2 : List Frame} (hred : f1.color = Color.COLOR_RED)
    (huncle : isRed f2.sibling = false) (hd1 : f1.dir = .left) (hd2 : f2.dir = .left) :
    InsertFixUpLoop (fuel + 1) (.node sd sc si sl sr) (f1 :: f2 :: rest2) =
      InsertFixUpLoop fuel (.node sd sc si sl sr)
        (⟨.left, f1.data, .COLOR_BLACK, f1.IsNullNode,
           .node f2.data .COLOR_RED f2.IsNullNode f1.sibling f2.sibling⟩ :: rest2) := by
  conv_lhs => rw [InsertFixUpLoop.eq_def]
  simp [hred, huncle, hd1, hd2]

theorem loop_RR {fuel : Nat} {sd : Int} {sc : Color} {si : Bool} {sl sr : RBTNode}
    {f1 f2 : Frame} {rest2 : List Frame} (hred : f1.color = Color.COLOR_RED)
    (huncle : isRed f2.sibling = false) (hd1 : f1.dir = .right) (hd2 : f2.dir = .right) :
    InsertFixUpLoop (fuel + 1) (.node sd sc si sl sr) (f1 :: f2 :: rest2) =
      InsertFixUpLoop fuel (.node sd sc si sl sr)
        (⟨.right, f1.data, .COLOR_BLACK, f1.IsNullNode,
           .node f2.data .COLOR_RED f2.IsNullNode f2.sibling f1.sibling⟩ :: rest2) := by
  conv_lhs => rw [InsertFixUpLoop.eq_def]
  simp [hred, huncle, hd1, hd2]

theorem loop_LR {fuel : Nat} {sd : Int} {sc : Color} {si : Bool} {sl sr : RBTNode}
    {f1 f2 : Frame} {rest2 : List Frame} (hred : f1.color = Color.COLOR_RED)
    (huncle : isRed f2.sibling = false) (hd1 : f1.dir = .left) (hd2 : f2.dir = .right) :
    InsertFixUpLoop (fuel + 1) (.node sd sc si sl sr) (f1 :: f2 :: rest2) =
      InsertFixUpLoop fuel (.node f1.data f1.color f1.IsNullNode sr f1.sibling)
        (⟨.right, sd, sc, si, sl⟩ :: f2 :: rest2) := by
  conv_lhs => rw [InsertFixUpLoop.eq_def]
  simp [hred, huncle, hd1, hd2]

theorem loop_RL {fuel : Nat} {sd : Int} {sc : Color} {si : Bool} {sl sr : RBTNode}
    {f1 f2 : Frame} {rest2 : List Frame} (hred : f1.color = Color.COLOR_RED)
    (huncle : isRed f2.sibling = false) (hd1 : f1.dir = .right) (hd2 : f2.dir = .left) :
    InsertFixUpLoop (fuel + 1) (.node sd sc si sl sr) (f1 :: f2 :: rest2) =
      InsertFixUpLoop fuel (.node f1.data f1.color f1.IsNullNode f1.sibling sl)
        (⟨.left, sd, sc, si, sr⟩ :: f2 :: rest2) := by
  conv_lhs => rw [InsertFixUpLoop.eq_def]
  simp [hred, huncle, hd1, hd2]

theorem isRed_node_iff {d : Int} {c : Color} {i : Bool} {l r : RBTNode} :
    isRed (.node d c i l r) = true ↔ c = .COLOR_RED := by
  cases c <;> simp [isRed]

theorem isRed_blackenRoot (t : RBTNode) : isRed (blackenRoot t) = false := by
  cases t <;> rfl

theorem isRed_nodeOfFrame (f : Frame) (s : RBTNode) :
    isRed (nodeOfFrame f s) = (f.color == Color.COLOR_RED) := by
  rw [isRed_eq_rootColor, rootColor_nodeOfFrame]

theorem frameKL_congr {f g : Frame} (hdir : f.dir = g.dir) (hdata : f.data = g.data)
    (hk : keysOf f.sibling = keysOf g.sibling) : frameKL f = frameKL g := by
  rw [frameKL, frameKL, hdir, hdata, hk]

theorem frameKR_congr {f g : Frame} (hdir : f.dir = g.dir) (hdata : f.data = g.data)
    (hk : keysOf f.sibling = keysOf g.sibling) : frameKR f = frameKR g := by
  rw [frameKR, frameKR, hdir, hdata, hk]

theorem FixupPost_trans {s : RBTNode} {ctx : List Frame} {s1 : RBTNode} {ctx1 : List Frame}
    {s2 : RBTNode} {ctx2 : List Frame}
    (h12 : keysOf (plug s1 ctx1) = keysOf (plug s ctx))
    (hpost : FixupPost s1 ctx1 s2 ctx2) : FixupPost s ctx s2 ctx2 :=
  ⟨hpost.1.trans h12, hpost.2.1, hpost.2.2.1, hpost.2.2.2.1, hpost.2.2.2.2⟩

/-- A state in the shape of the straight rotation cases (node and parent on
the same side, uncle not red) finishes in two iterations: one rotation plus
recoloring, then the loop condition fails because the new parent is black. -/
theorem fixup_straight {sd : Int} {sc : Color} {si : Bool} {sl sr : RBTNode}
    {f1 f2 : Frame} {rest2 : List Frame} {n : Nat}
    (inv : LoopInv (.node sd sc si sl sr) (f1 :: f2 :: rest2) n)
    (hred : f1.color = Color.COLOR_RED)
    (huncle : isRed f2.sibling = false)
    (hdd : f1.dir = f2.dir) :
    ∀ {fuel : Nat}, 2 ≤ fuel →
      ∃ s2 ctx2,
        InsertFixUpLoop fuel (.node sd sc si sl sr) (f1 :: f2 :: rest2) = some (s2, ctx2) ∧
        FixupPost (.node sd sc si sl sr) (f1 :: f2 :: rest2) s2 ctx2 := by
  intro fuel hfuel
  obtain ⟨fp, rfl⟩ : ∃ fp, fuel = fp + 1 + 1 := ⟨fuel - 2, by omega⟩
  have hsc : sc = Color.COLOR_RED := isRed_node_iff.mp inv.red
  subst hsc
  obtain ⟨dir1, d1, c1, i1, sib1⟩ := f1
  obtain ⟨dir2, d2, c2, i2, sib2⟩ := f2
  dsimp only at hred hdd huncle
  subst hred
  subst hdd
  -- extract the invariant components
  obtain ⟨cb1, cb2⟩ := ctxBH_cons_isSome.mp inv.cbh
  dsimp only at cb1 cb2
  rw [show bIncr Color.COLOR_RED = 0 from rfl, Nat.add_zero] at cb2
  obtain ⟨cb3, cb4⟩ := ctxBH_cons_isSome.mp cb2
  dsimp only at cb3 cb4
  obtain ⟨r1, r2, r3⟩ := ctxRR_cons.mp inv.crr
  dsimp only at r1 r2 r3
  have risib1 : isRed sib1 = false := (r2 rfl).2
  obtain ⟨r4, r5, r6⟩ := ctxRR_cons.mp r3
  dsimp only at r4 r5 r6
  have hc2 : ¬ c2 = Color.COLOR_RED := fun h => ((r5 h).1 rfl).elim
  obtain ⟨db1, db2, db3⟩ := ctxNoD_cons.mp inv.cnd
  dsimp only at db1 db2 db3
  obtain ⟨db4, db5, db6⟩ := ctxNoD_cons.mp db3
  dsimp only at db4 db5 db6
  have hc2b : c2 = Color.COLOR_BLACK := color_black_of_not_red hc2 db4
  subst hc2b
  rw [show bIncr Color.COLOR_BLACK = 1 from rfl] at cb4
  cases dir1 with
  | left =>
    rw [loop_LL rfl huncle rfl rfl, loop_exit_nonred (by intro h; cases h)]
    refine ⟨_, _, rfl, ?_, ?_, ?_, ?_, ?_⟩
    · rw [keys_plug, keys_plug]
      dsimp only [ctxKL, ctxKR, frameKL, frameKR, keysOf]
      simp [List.append_assoc]
    · rw [noRR_plug]
      refine ⟨inv.nrr, ?_⟩
      rw [ctxRR_cons]
      dsimp only
      refine ⟨?_, by intro h; exact absurd h (by decide), r6⟩
      rw [noRR_node]
      exact ⟨r1, r4, fun _ => ⟨risib1, huncle⟩⟩
    · rw [bh_plug _ _ n inv.hbh]
      rw [ctxBH_cons_isSome]
      refine ⟨?_, ?_⟩
      · dsimp only
        rw [bh_node_red]
        exact ⟨cb1, cb3⟩
      · dsimp only
        rw [show bIncr Color.COLOR_BLACK = 1 from rfl]
        exact cb4
    · rw [noD_plug]
      refine ⟨inv.ndc, ?_⟩
      rw [ctxNoD_cons]
      refine ⟨Or.inr rfl, ?_, db6⟩
      dsimp only
      rw [noDColor_node]
      exact ⟨Or.inl rfl, db2, db5⟩
    · exact plug_ne_nil _ (by simp)
  | right =>
    rw [loop_RR rfl huncle rfl rfl, loop_exit_nonred (by intro h; cases h)]
    refine ⟨_, _, rfl, ?_, ?_, ?_, ?_, ?_⟩
    · rw [keys_plug, keys_plug]
      dsimp only [ctxKL, ctxKR, frameKL, frameKR, keysOf]
      simp [List.append_assoc]
    · rw [noRR_plug]
      refine ⟨inv.nrr, ?_⟩
      rw [ctxRR_cons]
      dsimp only
      refine ⟨?_, by intro h; exact absurd h (by decide), r6⟩
      rw [noRR_node]
      exact ⟨r4, r1, fun _ => ⟨huncle, risib1⟩⟩
    · rw [bh_plug _ _ n inv.hbh]
      rw [ctxBH_cons_isSome]
      refine ⟨?_, ?_⟩
      · dsimp only
        rw [bh_node_red]
        exact ⟨cb3, cb1⟩
      · dsimp only
        rw [show bIncr Color.COLOR_BLACK = 1 from rfl]
        exact cb4
    · rw [noD_plug]
      refine ⟨inv.ndc, ?_⟩
      rw [ctxNoD_cons]
      refine ⟨Or.inr rfl, ?_, db6⟩
      dsimp only
      rw [noDColor_node]
      exact ⟨Or.inl rfl, db5, db2⟩
    · exact plug_ne_nil _ (by simp)

theorem frameKL_recolor (f : Frame) (c : Color) :
    frameKL { f with color := c, sibling := blackenRoot f.sibling } = frameKL f :=
  frameKL_congr rfl rfl (blackenRoot_keys _)

theorem frameKR_recolor (f : Frame) (c : Color) :
    frameKR { f with color := c, sibling := blackenRoot f.sibling } = frameKR f :=
  frameKR_congr rfl rfl (blackenRoot_keys _)

theorem frameKL_paint (f : Frame) (c : Color) :
    frameKL { f with color := c } = frameKL f :=
  frameKL_congr rfl rfl rfl

theorem frameKR_paint (f : Frame) (c : Color) :
    frameKR { f with color := c } = frameKR f :=
  frameKR_congr rfl rfl rfl

/-- The fix-up loop terminates (within `ctx.length + 2` iterations, never
dereferencing a null pointer) from every state satisfying the loop
invariant, and its final zipper plugs to a tree with the same keys, no
red-red edge, uniform black heights and no sentinel colors. -/
theorem fixup_loop_ok :
    ∀ (fuel : Nat) (s : RBTNode) (ctx : List Frame) (n : Nat),
      LoopInv s ctx n → ctx.length + 2 ≤ fuel →
      ∃ s2 ctx2, InsertFixUpLoop fuel s ctx = some (s2, ctx2) ∧ FixupPost s ctx s2 ctx2 := by
  intro fuel
  induction fuel with
  | zero =>
    intro s ctx n inv h
    omega
  | succ fp ih =>
    intro s ctx n inv hlen
    obtain ⟨sd, si, sl, sr, rfl⟩ : ∃ d i l r, s = RBTNode.node d .COLOR_RED i l r :=
      isRed_eq_true_iff.mp inv.red
    rcases hctx : ctx with _ | ⟨f1, rest⟩
    · subst hctx
      exact ⟨_, _, loop_ctx_nil, fixup_exit_post inv (Or.inl rfl)⟩
    · subst hctx
      by_cases hred : f1.color = Color.COLOR_RED
      · rcases hrest : rest with _ | ⟨f2, rest2⟩
        · subst hrest
          have hb : f1.color = Color.COLOR_BLACK := by
            simpa [lastBlack] using inv.lastb
          rw [hb] at hred
          exact absurd hred (by decide)
        · subst hrest
          -- shared components of the invariant
          obtain ⟨cb1, cb2⟩ := ctxBH_cons_isSome.mp inv.cbh
          rw [hred, show bIncr Color.COLOR_RED = 0 from rfl, Nat.add_zero] at cb2
          obtain ⟨cb3, cb4⟩ := ctxBH_cons_isSome.mp cb2
          obtain ⟨r1, r2, r3⟩ := ctxRR_cons.mp inv.crr
          have risib1 : isRed f1.sibling = false := (r2 hred).2
          rw [hred] at r3
          obtain ⟨r4, r5, r6⟩ := ctxRR_cons.mp r3
          have hf2 : ¬ f2.color = Color.COLOR_RED := fun h => ((r5 h).1 rfl).elim
          obtain ⟨db1, db2, db3⟩ := ctxNoD_cons.mp inv.cnd
          obtain ⟨db4, db5, db6⟩ := ctxNoD_cons.mp db3
          have hc2b : f2.color = Color.COLOR_BLACK := color_black_of_not_red hf2 db4
          rw [hc2b, show bIncr Color.COLOR_BLACK = 1 from rfl] at cb4
          obtain ⟨nsl, nsr, himp⟩ := noRR_node.mp inv.nrr
          obtain ⟨hisl, hisr⟩ := himp rfl
          obtain ⟨bsl, bsr⟩ := bh_node_red.mp inv.hbh
          obtain ⟨-, ndsl, ndsr⟩ := noDColor_node.mp inv.ndc
          have hlen2 : rest2.length + 4 ≤ fp + 1 := by
            simpa using hlen
          by_cases huncle : isRed f2.sibling = true
          · -- Case 1: uncle red, recolor and move up two frames
            set s1 := nodeOfFrame { f2 with color := .COLOR_RED, sibling := blackenRoot f2.sibling }
              (nodeOfFrame { f1 with color := .COLOR_BLACK }
                (RBTNode.node sd .COLOR_RED si sl sr)) with hs1
            have hbhP : bh (nodeOfFrame { f1 with color := Color.COLOR_BLACK }
                (RBTNode.node sd .COLOR_RED si sl sr)) = some (n + 1) := by
              have h2 := bh_nodeOfFrame (f := { f1 with color := Color.COLOR_BLACK }) inv.hbh cb1
              simpa [bIncr] using h2
            have hbhU : bh (blackenRoot f2.sibling) = some (n + 1) :=
              blackenRoot_bh_red huncle cb3
            have inv1 : LoopInv s1 rest2 (n + 1) := by
              refine ⟨?_, ?_, ?_, cb4, by rw [hc2b] at r6; exact r6, ?_, db6,
                lastBlack_tail (lastBlack_tail inv.lastb)⟩
              · rw [hs1, isRed_nodeOfFrame]
                rfl
              · rw [hs1]
                refine noRR_nodeOfFrame.mpr ⟨?_, blackenRoot_noRR r4, ?_⟩
                · refine noRR_nodeOfFrame.mpr ⟨inv.nrr, r1, ?_⟩
                  intro h
                  exact absurd h (by simp)
                · intro _
                  refine ⟨?_, isRed_blackenRoot _⟩
                  rw [isRed_nodeOfFrame]
                  rfl
              · rw [hs1]
                have h4 := bh_nodeOfFrame
                  (f := { f2 with color := Color.COLOR_RED, sibling := blackenRoot f2.sibling })
                  hbhP hbhU
                simpa [bIncr] using h4
              · rw [hs1]
                refine noD_nodeOfFrame.mpr ⟨Or.inl rfl, ?_, blackenRoot_noD db5⟩
                exact noD_nodeOfFrame.mpr ⟨Or.inr rfl, inv.ndc, db2⟩
            obtain ⟨s2, ctx2, hrun, hpost⟩ := ih s1 rest2 (n + 1) inv1 (by omega)
            refine ⟨s2, ctx2, ?_, FixupPost_trans ?_ hpost⟩
            · rw [loop_case1 hred huncle]
              exact hrun
            · rw [hs1, keys_plug, keys_plug]
              rw [ctxKL, ctxKL, ctxKR, ctxKR]
              rw [keys_nodeOfFrame, keys_nodeOfFrame]
              simp [List.append_assoc, frameKL_recolor, frameKR_recolor,
                frameKL_paint, frameKR_paint]
          · -- uncle black or absent: rotation cases
            have huncle2 : isRed f2.sibling = false := by
              simpa using huncle
            rcases hd1 : f1.dir with _ | _ <;> rcases hd2 : f2.dir with _ | _
            · -- left-left straight case
              exact fixup_straight inv hred huncle2 (hd1.trans hd2.symm) (by omega)
            · -- left-right zig-zag: RightRotate(parent), refocus, then straight
              have inv1 : LoopInv (.node f1.data f1.color f1.IsNullNode sr f1.sibling)
                  (⟨.right, sd, .COLOR_RED, si, sl⟩ :: f2 :: rest2) n := by
                refine ⟨isRed_node_iff.mpr hred, ?_, ?_, ?_, ?_, ?_, ?_, ?_⟩
                · exact noRR_node.mpr ⟨nsr, r1, fun _ => ⟨hisr, risib1⟩⟩
                · refine bh_node.mpr ⟨n, bsr, cb1, ?_⟩
                  rw [hred]
                  rfl
                · refine ctxBH_cons_isSome.mpr ⟨bsl, ?_⟩
                  simpa [bIncr] using cb2
                · refine ctxRR_cons.mpr ⟨nsl, fun _ => ⟨by decide, hisl⟩, r3⟩
                · exact noDColor_node.mpr ⟨Or.inl hred, ndsr, db2⟩
                · exact ctxNoD_cons.mpr ⟨Or.inl rfl, ndsl, db3⟩
                · show lastBlack (f2 :: rest2) = true
                  exact lastBlack_tail inv.lastb
              obtain ⟨s2, ctx2, hrun, hpost⟩ :=
                fixup_straight inv1 rfl huncle2 hd2.symm (show 2 ≤ fp by omega)
              refine ⟨s2, ctx2, ?_, FixupPost_trans ?_ hpost⟩
              · rw [loop_LR hred huncle2 hd1 hd2]
                exact hrun
              · rw [keys_plug, keys_plug]
                simp only [ctxKL, ctxKR, frameKL, frameKR, hd1, keysOf]
                simp [List.append_assoc]
            · -- right-left zig-zag: LeftRotate(parent), refocus, then straight
              have inv1 : LoopInv (.node f1.data f1.color f1.IsNullNode f1.sibling sl)
                  (⟨.left, sd, .COLOR_RED, si, sr⟩ :: f2 :: rest2) n := by
                refine ⟨isRed_node_iff.mpr hred, ?_, ?_, ?_, ?_, ?_, ?_, ?_⟩
                · exact noRR_node.mpr ⟨r1, nsl, fun _ => ⟨risib1, hisl⟩⟩
                · refine bh_node.mpr ⟨n, cb1, bsl, ?_⟩
                  rw [hred]
                  rfl
                · refine ctxBH_cons_isSome.mpr ⟨bsr, ?_⟩
                  simpa [bIncr] using cb2
                · refine ctxRR_cons.mpr ⟨nsr, fun _ => ⟨by decide, hisr⟩, r3⟩
                · exact noDColor_node.mpr ⟨Or.inl hred, db2, ndsl⟩
                · exact ctxNoD_cons.mpr ⟨Or.inl rfl, ndsr, db3⟩
                · show lastBlack (f2 :: rest2) = true
                  exact lastBlack_tail inv.lastb
              obtain ⟨s2, ctx2, hrun, hpost⟩ :=
                fixup_straight inv1 rfl huncle2 hd2.symm (show 2 ≤ fp by omega)
              refine ⟨s2, ctx2, ?_, FixupPost_trans ?_ hpost⟩
              · rw [loop_RL hred huncle2 hd1 hd2]
                exact hrun
              · rw [keys_plug, keys_plug]
                simp only [ctxKL, ctxKR, frameKL, frameKR, hd1, keysOf]
                simp [List.append_assoc]
            · -- right-right straight case
              exact fixup_straight inv hred huncle2 (hd1.trans hd2.symm) (by omega)
      · exact ⟨_, _, loop_exit_nonred hred,
          fixup_exit_post inv (Or.inr ⟨f1, rest, rfl, hred⟩)⟩

/-! ### Insert preserves the data-model invariants -/

theorem blackenRoot_ne_nil {t : RBTNode} (h : t ≠ .nil) : blackenRoot t ≠ .nil := by
  cases t with
  | nil => exact absurd rfl h
  | node d c i l r => simp [blackenRoot]

theorem blackenRoot_blackenRoot (t : RBTNode) :
    blackenRoot (blackenRoot t) = blackenRoot t := by
  cases t <;> rfl

theorem CopyOf_eq (t : RBTNode) : CopyOf t = t := by
  induction t with
  | nil => rfl
  | node d c i l r ihl ihr => rw [CopyOf, ihl, ihr]

theorem Insert_contains {t : RedBlackTree} {d : Int} (h : t.Contains d = true) :
    t.Insert d = some (t, some "Duplicate entry not allowed.") := by
  rw [RedBlackTree.Insert, if_pos h]

theorem Insert_not_contains {t : RedBlackTree} {d : Int} (h : t.Contains d = false) :
    t.Insert d =
      (match InsertFixUp (.node d .COLOR_RED false .nil .nil) (BasicInsertCtx d t.root) with
        | none => none
        | some fixedRoot =>
          match setRootBlack fixedRoot with
          | none => none
          | some newRoot => some (⟨newRoot, t.numItems + 1⟩, none)) := by
  rw [RedBlackTree.Insert, if_neg (by rw [h]; simp)]

theorem insert_tail_eq {r : RBTNode} {m : Nat} (hne : r ≠ .nil) :
    (match setRootBlack r with
      | none => none
      | some newRoot => some ((⟨newRoot, m⟩ : RedBlackTree), (none : Option String))) =
      some (⟨blackenRoot r, m⟩, none) := by
  rw [setRootBlack_eq hne]

/-- Establishing the loop invariant at the zipper produced by `BasicInsert`,
running the loop, and re-blackening the root: a successful `Insert` on a
well-formed tree that does not contain the key. -/
theorem Insert_ok {t : RedBlackTree} {d : Int} (hwf : WF t)
    (hcont : t.Contains d = false) :
    ∃ root2, t.Insert d = some (⟨root2, t.numItems + 1⟩, none) ∧
      WF ⟨root2, t.numItems + 1⟩ ∧
      (∀ k, k ∈ keysOf root2 ↔ (k ∈ keysOf t.root ∨ k = d)) ∧
      (keysOf root2).length = (keysOf t.root).length + 1 := by
  have hmem : d ∉ keysOf t.root := by
    intro hm
    rw [← Contains_iff_mem hwf.hbst d] at hm
    rw [hcont] at hm
    cases hm
  obtain ⟨n, hn⟩ := Option.isSome_iff_exists.mp hwf.hbh2
  have hins_plug :
      plug (.node d .COLOR_RED false .nil .nil) (BasicInsertCtx d t.root) =
        basicInsertT (.node d .COLOR_RED false .nil .nil) d t.root :=
    plug_basicInsertCtx _ _ _
  have hprobe_plug :
      plug (.node d .COLOR_BLACK false .nil .nil) (BasicInsertCtx d t.root) =
        basicInsertT (.node d .COLOR_BLACK false .nil .nil) d t.root :=
    plug_basicInsertCtx _ _ _
  have inv0 : LoopInv (.node d .COLOR_RED false .nil .nil) (BasicInsertCtx d t.root) 0 := by
    refine ⟨rfl, by simp [noRR, isRed], by simp [bh, bIncr], ?_, ?_, by simp [noDColor], ?_,
      lastBlack_basicInsertCtx hwf.hroot⟩
    · have h1 : bh (basicInsertT (.node d .COLOR_RED false .nil .nil) d t.root) = some n :=
        bh_basicInsertT hn
      rw [← hins_plug, bh_plug _ _ 0 (by simp [bh, bIncr])] at h1
      rw [h1]
      rfl
    · have h1 : noRR (basicInsertT (.node d .COLOR_BLACK false .nil .nil) d t.root) = true :=
        noRR_basicInsertT_black hwf.hnrr
      rw [← hprobe_plug, noRR_plug] at h1
      exact h1.2
    · have h1 : noDColor (basicInsertT (.node d .COLOR_BLACK false .nil .nil) d t.root) = true :=
        noD_basicInsertT (Or.inr rfl) hwf.hnd
      rw [← hprobe_plug, noD_plug] at h1
      exact h1.2
  obtain ⟨s2, ctx2, hrun, hkeys, hnrr2, hbh3, hnd2, hne2⟩ :=
    fixup_loop_ok ((BasicInsertCtx d t.root).length + 2)
      (.node d .COLOR_RED false .nil .nil) (BasicInsertCtx d t.root) 0 inv0 (Nat.le_refl _)
  have hfix : InsertFixUp (.node d .COLOR_RED false .nil .nil) (BasicInsertCtx d t.root) =
      some (blackenRoot (plug s2 ctx2)) := by
    rw [InsertFixUp, hrun]
    exact setRootBlack_eq hne2
  have hkeys2 : keysOf (blackenRoot (plug s2 ctx2)) =
      keysOf (basicInsertT (.node d .COLOR_RED false .nil .nil) d t.root) := by
    rw [blackenRoot_keys, hkeys, hins_plug]
  have hbst2 : bst none none (basicInsertT (.node d .COLOR_RED false .nil .nil) d t.root) = true :=
    bst_basicInsertT hwf.hbst rfl rfl hmem
  refine ⟨blackenRoot (plug s2 ctx2), ?_, ?_, ?_, ?_⟩
  · rw [Insert_not_contains hcont, hfix]
    have h5 := insert_tail_eq (m := t.numItems + 1) (blackenRoot_ne_nil hne2)
    rw [blackenRoot_blackenRoot] at h5
    exact h5
  · refine ⟨?_, rootBlackB_blackenRoot _, blackenRoot_noRR hnrr2, ?_, blackenRoot_noD hnd2, ?_⟩
    · refine pairwise_bst ?_ (fun k _ => rfl) (fun k _ => rfl)
      rw [hkeys2]
      exact bst_pairwise hbst2
    · obtain ⟨m, hm⟩ := Option.isSome_iff_exists.mp hbh3
      exact blackenRoot_bh hm
    · show t.numItems + 1 = (keysOf (blackenRoot (plug s2 ctx2))).length
      rw [hkeys2, length_keys_basicInsertT, hwf.hcount]
      simp [keysOf]
      omega
  · intro k
    rw [hkeys2, mem_keys_basicInsertT]
    simp [keysOf]
    tauto
  · rw [hkeys2, length_keys_basicInsertT]
    simp [keysOf]
    omega

/-- Every reachable tree satisfies the data-model invariants. -/
theorem reachable_wf {t : RedBlackTree} (h : Reachable t) : WF t := by
  induction h with
  | empty => exact ⟨rfl, rfl, rfl, rfl, rfl, rfl⟩
  | single d => exact ⟨by simp [bst, oLt, oGt], rfl, by simp [noRR, isRed], rfl,
      by simp [noDColor], rfl⟩
  | copy hr ih =>
    have : ∀ u : RedBlackTree, u.copyCtor = u := by
      intro u
      rw [RedBlackTree.copyCtor, CopyOf_eq]
    rw [this]
    exact ih
  | insert hr hins ih =>
    rename_i t0 t2 d
    by_cases hc : t0.Contains d = true
    · rw [Insert_contains hc] at hins
      exact absurd hins (by simp)
    · have hc2 : t0.Contains d = false := by
        simpa using hc
      obtain ⟨root2, heq, hwf2, -, -⟩ := Insert_ok ih hc2
      rw [heq, Option.some_inj, Prod.mk.injEq] at hins
      rwa [hins.1] at hwf2

theorem layoutCopy_length (t : RBTNode) :
    ∀ (base : Nat) (par : Option Nat), (layoutCopy t base par).length = countNodes t := by
  induction t with
  | nil => intro base par; rfl
  | node d c i l r ihl ihr =>
    intro base par
    rw [layoutCopy, countNodes]
    simp only [List.length_cons, List.length_append, ihl, ihr]

theorem countNodes_pos {t : RBTNode} (h : t ≠ .nil) : 1 ≤ countNodes t := by
  cases t with
  | nil => exact absurd rfl h
  | node d c i l r => rw [countNodes]; omega

theorem setAtH_cons_succ (x : HNode) (h : Heap) (i : Nat) (f : HNode → HNode) :
    setAtH (x :: h) (i + 1) f = x :: setAtH h i f := by
  cases hg : h[i]? <;> simp [setAtH, hg]

theorem setAtH_zero_cons (x : HNode) (h : Heap) (f : HNode → HNode) :
    setAtH (x :: h) 0 f = f x :: h := by
  simp [setAtH]

theorem setAtH_append_ge (h l : Heap) (i : Nat) (f : HNode → HNode)
    (hge : h.length ≤ i) : setAtH (h ++ l) i f = h ++ setAtH l (i - h.length) f := by
  induction h generalizing i with
  | nil => simp
  | cons x h2 ih =>
    obtain ⟨i2, rfl⟩ : ∃ i2, i = i2 + 1 := by
      refine ⟨i - 1, ?_⟩
      simp at hge
      omega
    rw [List.cons_append, setAtH_cons_succ, ih _ (by simpa using hge)]
    simp

theorem setAtH_append_lt (h l : Heap) (i : Nat) (f : HNode → HNode)
    (hlt : i < h.length) : setAtH (h ++ l) i f = setAtH h i f ++ l := by
  induction h generalizing i with
  | nil => simp at hlt
  | cons x h2 ih =>
    cases i with
    | zero => rw [List.cons_append, setAtH_zero_cons, setAtH_zero_cons, List.cons_append]
    | succ i2 =>
      rw [List.cons_append, setAtH_cons_succ, setAtH_cons_succ, ih _ (by simpa using hlt),
        List.cons_append]

theorem layoutCopy_set_parent (t : RBTNode) (base : Nat) (q : Nat) :
    setAtH (layoutCopy t base none) 0 (fun nd => { nd with parent := some q }) =
      layoutCopy t base (some q) := by
  cases t with
  | nil => rfl
  | node d c i l r => rw [layoutCopy, layoutCopy, setAtH_zero_cons]

theorem setAtH_mid (h : Heap) (x : HNode) (l : Heap) (f : HNode → HNode) :
    setAtH (h ++ x :: l) h.length f = h ++ f x :: l := by
  rw [show h ++ x :: l = h ++ ((x :: l) : Heap) from rfl,
    setAtH_append_ge _ _ _ _ (Nat.le_refl _), Nat.sub_self, setAtH_zero_cons]

theorem setAtH_mid1 (h : Heap) (x : HNode) (l : Heap) (f : HNode → HNode) :
    setAtH (h ++ x :: l) (h.length + 1) f = h ++ x :: setAtH l 0 f := by
  rw [show h ++ x :: l = (h ++ [x]) ++ l from by simp,
    setAtH_append_ge _ _ _ _ (by simp)]
  simp

theorem setAtH_mid2 (h : Heap) (x : HNode) (l1 l2 : Heap) (f : HNode → HNode) :
    setAtH (h ++ x :: (l1 ++ l2)) (h.length + 1 + l1.length) f =
      h ++ x :: (l1 ++ setAtH l2 0 f) := by
  rw [show h ++ x :: (l1 ++ l2) = (h ++ x :: l1) ++ l2 from by simp,
    setAtH_append_ge _ _ _ _ (by simp only [List.length_append, List.length_cons]; omega)]
  rw [show h.length + 1 + l1.length - (h ++ x :: l1).length = 0 from by
    simp only [List.length_append, List.length_cons]; omega]
  simp

theorem layoutCopy_parent_head {t : RBTNode} (ht : t ≠ .nil) (base q : Nat) (rest : Heap) :
    setAtH (layoutCopy t base none ++ rest) 0 (fun nd => { nd with parent := some q }) =
      layoutCopy t base (some q) ++ rest := by
  have hpos : 0 < (layoutCopy t base none).length := by
    rw [layoutCopy_length]
    exact countNodes_pos ht
  rw [setAtH_append_lt _ _ _ _ hpos, layoutCopy_set_parent]

theorem setAtH_mid2L (h : Heap) (x : HNode) (t : RBTNode) (b : Nat) (p : Option Nat)
    (l2 : Heap) (f : HNode → HNode) :
    setAtH (h ++ x :: (layoutCopy t b p ++ l2)) (h.length + 1 + countNodes t) f =
      h ++ x :: (layoutCopy t b p ++ setAtH l2 0 f) := by
  have h2 := setAtH_mid2 h x (layoutCopy t b p) l2 f
  rw [layoutCopy_length] at h2
  exact h2

theorem CopyOfH_spec (t : RBTNode) :
    ∀ h : Heap, CopyOfH t h =
      ((if t = .nil then none else some h.length), h ++ layoutCopy t h.length none) := by
  induction t with
  | nil => intro h; simp [CopyOfH, layoutCopy]
  | node d c i l r ihl ihr =>
    intro h
    simp only [CopyOfH]
    rw [ihl, ihr]
    by_cases hl : l = RBTNode.nil <;> by_cases hr : r = RBTNode.nil <;>
      simp only [hl, hr, reduceIte, layoutCopy, countNodes, List.append_nil,
        List.length_append, List.length_singleton, List.singleton_append,
        List.append_assoc, List.cons_append, List.nil_append, layoutCopy_length,
        setAtH_mid, setAtH_mid1, setAtH_mid2, layoutCopy_set_parent] <;>
      first
      | rfl
      | (rw [layoutCopy_parent_head hl]
         simp only [List.length_cons, layoutCopy_length]
         rw [show List.length h + (countNodes l + 1) = List.length h + 1 + countNodes l from by
           omega]
         rw [setAtH_mid2L, layoutCopy_set_parent]
         rfl)

theorem pc_region (t : RBTNode) :
    ∀ (base : Nat) (par : Option Nat) (H : Heap),
      (∀ j, j < countNodes t → H[base + j]? = (layoutCopy t base par)[j]?) →
      (∀ q, par = some q → t ≠ .nil →
        ∃ np, H[q]? = some np ∧
          ((np.left == some base) != (np.right == some base)) = true) →
      ∀ j, j < countNodes t → pcAt H (base + j) = true := by
  induction t with
  | nil =>
    intro base par H hsub hpar j hj
    rw [countNodes] at hj
    omega
  | node d c i l r ihl ihr =>
    intro base par H hsub hpar j hj
    have hpos : 0 < countNodes (RBTNode.node d c i l r) := by rw [countNodes]; omega
    have htop : H[base]? = some ⟨d, c, i,
        (if l = .nil then none else some (base + 1)),
        (if r = .nil then none else some (base + 1 + countNodes l)), par⟩ := by
      have h0 := hsub 0 hpos
      rw [Nat.add_zero] at h0
      rw [h0, layoutCopy]
      simp
    rw [countNodes] at hj
    rcases Nat.lt_or_ge j 1 with hj0 | hj1
    · have hj00 : j = 0 := by omega
      subst hj00
      rw [Nat.add_zero, pcAt, htop]
      cases hq : par with
      | none => rfl
      | some q =>
        obtain ⟨np, hnp, hxor⟩ := hpar q hq (by simp)
        simp only [hnp]
        exact hxor
    · rcases Nat.lt_or_ge j (1 + countNodes l) with hjl | hjr
      · -- the cell lies in the left child's block
        obtain ⟨j2, rfl⟩ : ∃ j2, j = j2 + 1 := ⟨j - 1, by omega⟩
        have hj2 : j2 < countNodes l := by omega
        have hlnil : l ≠ RBTNode.nil := by
          intro he
          rw [he, countNodes] at hj2
          omega
        rw [show base + (j2 + 1) = (base + 1) + j2 from by omega]
        refine ihl (base + 1) (some base) H ?_ ?_ j2 hj2
        · intro j3 hj3
          have h3 := hsub (j3 + 1) (by rw [countNodes]; omega)
          rw [show base + (j3 + 1) = base + 1 + j3 from by omega] at h3
          rw [h3, layoutCopy, List.getElem?_cons_succ,
            List.getElem?_append_left (by rw [layoutCopy_length]; exact hj3)]
        · intro q hq hne
          rw [Option.some_inj] at hq
          subst hq
          refine ⟨_, htop, ?_⟩
          rw [if_neg hlnil]
          have h1 : ((some (base + 1) : Option Nat) == some (base + 1)) = true := by simp
          by_cases hrn : r = RBTNode.nil
          · rw [if_pos hrn, h1]
            rfl
          · rw [if_neg hrn]
            have hcl : 1 ≤ countNodes l := countNodes_pos hlnil
            have h2 : ((some (base + 1 + countNodes l) : Option Nat) == some (base + 1)) =
                false := by
              rw [beq_eq_false_iff_ne]
              intro he
              rw [Option.some_inj] at he
              omega
            rw [h1, h2]
            rfl
      · -- the cell lies in the right child's block
        obtain ⟨j2, rfl⟩ : ∃ j2, j = 1 + countNodes l + j2 := ⟨j - (1 + countNodes l), by omega⟩
        have hj2 : j2 < countNodes r := by omega
        have hrnil : r ≠ RBTNode.nil := by
          intro he
          rw [he, countNodes] at hj2
          omega
        rw [show base + (1 + countNodes l + j2) = (base + 1 + countNodes l) + j2 from by omega]
        refine ihr (base + 1 + countNodes l) (some base) H ?_ ?_ j2 hj2
        · intro j3 hj3
          have h3 := hsub (1 + countNodes l + j3) (by rw [countNodes]; omega)
          rw [show base + (1 + countNodes l + j3) = base + 1 + countNodes l + j3 from by
            omega] at h3
          rw [h3, layoutCopy]
          rw [show 1 + countNodes l + j3 = (countNodes l + j3) + 1 from by omega,
            List.getElem?_cons_succ,
            List.getElem?_append_right (by rw [layoutCopy_length]; omega)]
          rw [layoutCopy_length]
          congr 1
          omega
        · intro q hq hne
          rw [Option.some_inj] at hq
          subst hq
          refine ⟨_, htop, ?_⟩
          rw [if_neg hrnil]
          have h1 : ((some (base + 1 + countNodes l) : Option Nat) ==
              some (base + 1 + countNodes l)) = true := by simp
          by_cases hln : l = RBTNode.nil
          · rw [if_pos hln, h1]
            rfl
          · rw [if_neg hln]
            have hcl : 1 ≤ countNodes l := countNodes_pos hln
            have h2 : ((some (base + 1) : Option Nat) == some (base + 1 + countNodes l)) =
                false := by
              rw [beq_eq_false_iff_ne]
              intro he
              rw [Option.some_inj] at he
              omega
            rw [h1, h2]
            rfl

/-- The heap block built by the deep copy is parent-consistent. -/
theorem parentConsistentB_layout (t : RBTNode) :
    parentConsistentB (layoutCopy t 0 none) = true := by
  rw [parentConsistentB, List.all_eq_true]
  intro c hc
  rw [List.mem_range, layoutCopy_length] at hc
  have h := pc_region t 0 none (layoutCopy t 0 none)
    (fun j _ => by rw [Nat.zero_add]) (fun q hq _ => by cases hq) c hc
  rwa [Nat.zero_add] at h

/-! ### Remaining query lemmas for the claims -/

theorem colorsOf_noD {t : RBTNode} (h : noDColor t = true) :
    ∀ c ∈ colorsOf t, c = .COLOR_RED ∨ c = .COLOR_BLACK := by
  induction t with
  | nil => intro c hc; simp [colorsOf] at hc
  | node d c0 i l r ihl ihr =>
    intro c hc
    rw [noDColor_node] at h
    simp only [colorsOf, List.append_assoc, List.mem_append, List.mem_singleton,
      List.mem_cons, List.mem_nil_iff, or_false] at hc
    rcases hc with hc | hc | hc
    · exact ihl h.2.1 c hc
    · subst hc; exact h.1
    · exact ihr h.2.2 c hc

/-- The loop invariant holds at the zipper `BasicInsert` produces on a
well-formed tree for a key it does not contain. -/
theorem initial_loopInv {t : RedBlackTree} {d : Int} (hwf : WF t)
    (hcont : t.Contains d = false) :
    LoopInv (.node d .COLOR_RED false .nil .nil) (BasicInsertCtx d t.root) 0 := by
  have hins_plug :
      plug (.node d .COLOR_RED false .nil .nil) (BasicInsertCtx d t.root) =
        basicInsertT (.node d .COLOR_RED false .nil .nil) d t.root :=
    plug_basicInsertCtx _ _ _
  have hprobe_plug :
      plug (.node d .COLOR_BLACK false .nil .nil) (BasicInsertCtx d t.root) =
        basicInsertT (.node d .COLOR_BLACK false .nil .nil) d t.root :=
    plug_basicInsertCtx _ _ _
  obtain ⟨n, hn⟩ := Option.isSome_iff_exists.mp hwf.hbh2
  refine ⟨rfl, by simp [noRR, isRed], by simp [bh, bIncr], ?_, ?_, by simp [noDColor], ?_,
    lastBlack_basicInsertCtx hwf.hroot⟩
  · have h1 : bh (basicInsertT (.node d .COLOR_RED false .nil .nil) d t.root) = some n :=
      bh_basicInsertT hn
    rw [← hins_plug, bh_plug _ _ 0 (by simp [bh, bIncr])] at h1
    rw [h1]
    rfl
  · have h1 : noRR (basicInsertT (.node d .COLOR_BLACK false .nil .nil) d t.root) = true :=
      noRR_basicInsertT_black hwf.hnrr
    rw [← hprobe_plug, noRR_plug] at h1
    exact h1.2
  · have h1 : noDColor (basicInsertT (.node d .COLOR_BLACK false .nil .nil) d t.root) = true :=
      noD_basicInsertT (Or.inr rfl) hwf.hnd
    rw [← hprobe_plug, noD_plug] at h1
    exact h1.2

theorem length_keysOf_eq_countNodes (t : RBTNode) :
    (keysOf t).length = countNodes t := by
  induction t with
  | nil => rfl
  | node d c i l r ihl ihr =>
    rw [keysOf, countNodes]
    simp only [List.length_append, List.length_cons, List.length_nil, ihl, ihr]
    omega

/-! ### The claims -/

/-- C1: for every tree reachable by the constructors and successful `Insert`
operations, all six invariants of the data model hold after each operation
returns: BST ordering with strict bounds, no duplicate keys, a black root,
no red node with a red child, uniform black counts on every downward path to
an absent-child position, and `numItems` equal to the number of reachable
nodes. -/
theorem c1_insert_invariants (t : RedBlackTree) (h : Reachable t) :
    bst none none t.root = true ∧
    (keysOf t.root).Nodup ∧
    rootBlackB t.root = true ∧
    noRR t.root = true ∧
    (bh t.root).isSome = true ∧
    t.numItems = countNodes t.root := by
  obtain ⟨h1, h2, h3, h4, h5, h6⟩ := reachable_wf h
  refine ⟨h1, bst_nodup h1, h2, h3, h4, ?_⟩
  rw [h6, length_keysOf_eq_countNodes]

theorem c1_insert_invariants_witness :
    Reachable (⟨.node 10 .COLOR_BLACK false .nil (.node 20 .COLOR_RED false .nil .nil), 2⟩ :
      RedBlackTree) ∧
    (bst none none (RBTNode.node 10 .COLOR_BLACK false .nil
        (.node 20 .COLOR_RED false .nil .nil)) = true ∧
      (keysOf (RBTNode.node 10 .COLOR_BLACK false .nil
        (.node 20 .COLOR_RED false .nil .nil))).Nodup ∧
      rootBlackB (RBTNode.node 10 .COLOR_BLACK false .nil
        (.node 20 .COLOR_RED false .nil .nil)) = true ∧
      noRR (RBTNode.node 10 .COLOR_BLACK false .nil
        (.node 20 .COLOR_RED false .nil .nil)) = true ∧
      (bh (RBTNode.node 10 .COLOR_BLACK false .nil
        (.node 20 .COLOR_RED false .nil .nil))).isSome = true ∧
      (2 : Nat) = countNodes (RBTNode.node 10 .COLOR_BLACK false .nil
        (.node 20 .COLOR_RED false .nil .nil))) :=
  have hr : Reachable (⟨.node 10 .COLOR_BLACK false .nil
      (.node 20 .COLOR_RED false .nil .nil), 2⟩ : RedBlackTree) :=
    @Reachable.insert (⟨.node 10 .COLOR_BLACK false .nil .nil, 1⟩ : RedBlackTree)
      (⟨.node 10 .COLOR_BLACK false .nil (.node 20 .COLOR_RED false .nil .nil), 2⟩ :
        RedBlackTree) 20
      (@Reachable.insert RedBlackTree.mkEmpty
        (⟨.node 10 .COLOR_BLACK false .nil .nil, 1⟩ : RedBlackTree) 10
        Reachable.empty (by decide))
      (by decide)
  ⟨hr, c1_insert_invariants _ hr⟩

/-- C2: inserting a key that is already stored fails with the duplicate-key
error; the check happens via lookup before any mutation, so the post-state
is the unchanged tree: its traversal output, `Contains`, and `numItems` are
unchanged. -/
theorem c2_duplicate_insert (t : RedBlackTree) (d : Int) (h : Reachable t)
    (hmem : d ∈ keysOf t.root) :
    t.Insert d = some (t, some "Duplicate entry not allowed.") ∧
    t.Contains d = true ∧
    (∀ t2 e, t.Insert d = some (t2, e) →
      ToInfixString t2.root = ToInfixString t.root ∧ t2.Contains d = true ∧
      t2.numItems = t.numItems) := by
  have hc : t.Contains d = true := (Contains_iff_mem (reachable_wf h).hbst d).mpr hmem
  refine ⟨Insert_contains hc, hc, ?_⟩
  intro t2 e ht2
  rw [Insert_contains hc, Option.some_inj, Prod.mk.injEq] at ht2
  rw [← ht2.1]
  exact ⟨rfl, hc, rfl⟩

theorem c2_duplicate_insert_witness :
    (5 : Int) ∈ keysOf (RedBlackTree.mkSingle 5).root ∧
    (RedBlackTree.mkSingle 5).Insert 5 =
      some (RedBlackTree.mkSingle 5, some "Duplicate entry not allowed.") ∧
    (RedBlackTree.mkSingle 5).Contains 5 = true :=
  have h := c2_duplicate_insert (RedBlackTree.mkSingle 5) 5 (Reachable.single 5) (by decide)
  ⟨by decide, h.1, h.2.1⟩

/-- C3 counterexample: inserting 10, 20, 30 into an empty tree does produce
20 as the BLACK root after a left rotation, but 10 and 30 are RED, so the
in-order render is `" R10  B20  R30 "` — the token sequence R10 B20 R30, not
the claimed B10 B20 B30 (which, in the renderer's fixed format, would be the
string `" B10  B20  B30 "`). -/
theorem c3_scenario_counterexample :
    RedBlackTree.mkEmpty.Insert 10 =
      some (⟨.node 10 .COLOR_BLACK false .nil .nil, 1⟩, none) ∧
    (⟨.node 10 .COLOR_BLACK false .nil .nil, 1⟩ : RedBlackTree).Insert 20 =
      some (⟨.node 10 .COLOR_BLACK false .nil (.node 20 .COLOR_RED false .nil .nil), 2⟩,
        none) ∧
    (⟨.node 10 .COLOR_BLACK false .nil (.node 20 .COLOR_RED false .nil .nil), 2⟩ :
        RedBlackTree).Insert 30 =
      some (⟨.node 20 .COLOR_BLACK false (.node 10 .COLOR_RED false .nil .nil)
        (.node 30 .COLOR_RED false .nil .nil), 3⟩, none) ∧
    ToInfixString (.node 20 .COLOR_BLACK false (.node 10 .COLOR_RED false .nil .nil)
      (.node 30 .COLOR_RED false .nil .nil)) = " R10  B20  R30 " ∧
    ToInfixString (.node 20 .COLOR_BLACK false (.node 10 .COLOR_RED false .nil .nil)
      (.node 30 .COLOR_RED false .nil .nil)) ≠ " B10  B20  B30 " ∧
    colorsOf (.node 20 .COLOR_BLACK false (.node 10 .COLOR_RED false .nil .nil)
      (.node 30 .COLOR_RED false .nil .nil)) =
      [.COLOR_RED, .COLOR_BLACK, .COLOR_RED] := by
  refine ⟨by decide, by decide, by decide, by decide, by decide, by decide⟩

/-- C3 amended: inserting 10, 20, 30 in order triggers the right-right
fix-up case, which performs a left rotation around the old root; the result
has 20 as the BLACK root with 10 and 30 as RED children, and the in-order
render is `" R10  B20  R30 "` (tokens R10 B20 R30). -/
theorem c3_scenario_amended :
    RedBlackTree.mkEmpty.Insert 10 =
      some (⟨.node 10 .COLOR_BLACK false .nil .nil, 1⟩, none) ∧
    (⟨.node 10 .COLOR_BLACK false .nil .nil, 1⟩ : RedBlackTree).Insert 20 =
      some (⟨.node 10 .COLOR_BLACK false .nil (.node 20 .COLOR_RED false .nil .nil), 2⟩,
        none) ∧
    (⟨.node 10 .COLOR_BLACK false .nil (.node 20 .COLOR_RED false .nil .nil), 2⟩ :
        RedBlackTree).Insert 30 =
      some (⟨.node 20 .COLOR_BLACK false (.node 10 .COLOR_RED false .nil .nil)
        (.node 30 .COLOR_RED false .nil .nil), 3⟩, none) ∧
    ToInfixString (.node 20 .COLOR_BLACK false (.node 10 .COLOR_RED false .nil .nil)
      (.node 30 .COLOR_RED false .nil .nil)) = " R10  B20  R30 " := by
  refine ⟨by decide, by decide, by decide, by decide⟩

/-- C4: `GetMin`/`GetMax` fail with the "empty tree" error exactly when the
tree has no nodes; on every non-empty reachable tree `GetMin` returns the
leftmost key, which is the least stored key, and `GetMax` the rightmost,
which is the greatest. -/
theorem c4_min_max (t : RedBlackTree) (h : Reachable t) :
    ((t.GetMin = .error "Tree is empty.") ↔ t.root = .nil) ∧
    ((t.GetMax = .error "Tree is empty.") ↔ t.root = .nil) ∧
    (t.root ≠ .nil →
      ∃ m, t.GetMin = .ok m ∧ m ∈ keysOf t.root ∧ ∀ k ∈ keysOf t.root, m ≤ k) ∧
    (t.root ≠ .nil →
      ∃ m, t.GetMax = .ok m ∧ m ∈ keysOf t.root ∧ ∀ k ∈ keysOf t.root, k ≤ m) := by
  have hwf := reachable_wf h
  refine ⟨?_, ?_, fun hne => GetMin_spec hwf.hbst hne, fun hne => GetMax_spec hwf.hbst hne⟩
  · constructor
    · intro he
      by_contra hne
      obtain ⟨m, hm, -, -⟩ := GetMin_spec hwf.hbst hne
      rw [hm] at he
      cases he
    · intro he
      rw [RedBlackTree.GetMin, he]
  · constructor
    · intro he
      by_contra hne
      obtain ⟨m, hm, -, -⟩ := GetMax_spec hwf.hbst hne
      rw [hm] at he
      cases he
    · intro he
      rw [RedBlackTree.GetMax, he]

theorem c4_min_max_witness :
    (((RedBlackTree.mkSingle 5).GetMin = .error "Tree is empty.") ↔
      (RedBlackTree.mkSingle 5).root = .nil) ∧
    (((RedBlackTree.mkSingle 5).GetMax = .error "Tree is empty.") ↔
      (RedBlackTree.mkSingle 5).root = .nil) ∧
    ((RedBlackTree.mkSingle 5).root ≠ .nil →
      ∃ m, (RedBlackTree.mkSingle 5).GetMin = .ok m ∧
        m ∈ keysOf (RedBlackTree.mkSingle 5).root ∧
        ∀ k ∈ keysOf (RedBlackTree.mkSingle 5).root, m ≤ k) ∧
    ((RedBlackTree.mkSingle 5).root ≠ .nil →
      ∃ m, (RedBlackTree.mkSingle 5).GetMax = .ok m ∧
        m ∈ keysOf (RedBlackTree.mkSingle 5).root ∧
        ∀ k ∈ keysOf (RedBlackTree.mkSingle 5).root, k ≤ m) :=
  c4_min_max (RedBlackTree.mkSingle 5) (Reachable.single 5)

/-- C5: the deep copy duplicates every node's key, color and structure; at
the heap level the copy never touches any pre-existing cell (in particular
the cells storing the source tree) and occupies only fresh addresses
appended after them, so the two trees have independent storage and mutating
one cannot affect the other. -/
theorem c5_copy_independence (t : RedBlackTree) (h : Reachable t) :
    (t.copyCtor.root = t.root ∧ t.copyCtor.numItems = t.numItems ∧
      pairsOf t.copyCtor.root = pairsOf t.root ∧
      ToInfixString t.copyCtor.root = ToInfixString t.root) ∧
    (∀ (heap : Heap) (i : Nat), i < heap.length →
      ((CopyOfH t.root heap).2)[i]? = heap[i]?) ∧
    (∀ heap : Heap, t.root ≠ .nil →
      (CopyOfH t.root heap).1 = some heap.length ∧
      ((CopyOfH t.root heap).2).length = heap.length + countNodes t.root) := by
  refine ⟨?_, ?_, ?_⟩
  · rw [RedBlackTree.copyCtor, CopyOf_eq]
    exact ⟨rfl, rfl, rfl, rfl⟩
  · intro heap i hi
    rw [CopyOfH_spec]
    exact List.getElem?_append_left hi
  · intro heap hne
    rw [CopyOfH_spec]
    refine ⟨by rw [if_neg hne], ?_⟩
    simp [layoutCopy_length]

theorem c5_copy_independence_witness :
    ((RedBlackTree.mkSingle 7).copyCtor.root = (RedBlackTree.mkSingle 7).root ∧
      (RedBlackTree.mkSingle 7).copyCtor.numItems = (RedBlackTree.mkSingle 7).numItems ∧
      pairsOf (RedBlackTree.mkSingle 7).copyCtor.root =
        pairsOf (RedBlackTree.mkSingle 7).root ∧
      ToInfixString (RedBlackTree.mkSingle 7).copyCtor.root =
        ToInfixString (RedBlackTree.mkSingle 7).root) ∧
    (∀ (heap : Heap) (i : Nat), i < heap.length →
      ((CopyOfH (RedBlackTree.mkSingle 7).root heap).2)[i]? = heap[i]?) ∧
    (∀ heap : Heap, (RedBlackTree.mkSingle 7).root ≠ .nil →
      (CopyOfH (RedBlackTree.mkSingle 7).root heap).1 = some heap.length ∧
      ((CopyOfH (RedBlackTree.mkSingle 7).root heap).2).length =
        heap.length + countNodes (RedBlackTree.mkSingle 7).root) :=
  c5_copy_independence (RedBlackTree.mkSingle 7) (Reachable.single 7)

/-- C6: in the explicit-pointer image of a reachable tree, as materialized
by the heap-level deep copy, every cell's parent back-reference is
consistent with the owning pointer in the opposite direction: a cell with
`parent = p` is either `p.left` or `p.right`, exclusively — and the copied
root's parent is null. -/
theorem c6_parent_consistency (t : RedBlackTree) (h : Reachable t) :
    parentConsistentB ((CopyOfH t.root []).2) = true ∧
    (∀ nd, ((CopyOfH t.root []).2)[0]? = some nd → nd.parent = none) := by
  constructor
  · rw [CopyOfH_spec]
    show parentConsistentB (layoutCopy t.root ([] : Heap).length none) = true
    exact parentConsistentB_layout t.root
  · intro nd hnd
    rw [CopyOfH_spec] at hnd
    show nd.parent = none
    cases ht : t.root with
    | nil =>
      rw [ht] at hnd
      cases hnd
    | node d c i l r =>
      rw [ht, layoutCopy] at hnd
      simp only [List.nil_append, List.getElem?_cons_zero, Option.some_inj] at hnd
      rw [← hnd]

theorem c6_parent_consistency_witness :
    parentConsistentB ((CopyOfH (RedBlackTree.mkSingle 3).root []).2) = true ∧
    (∀ nd, ((CopyOfH (RedBlackTree.mkSingle 3).root []).2)[0]? = some nd →
      nd.parent = none) :=
  c6_parent_consistency (RedBlackTree.mkSingle 3) (Reachable.single 3)

/-- C7: on every reachable tree the insertion fix-up loop terminates — the
loop needs at most `ctx.length + 2` iterations (the parent chain can only
shorten, except for the single zig-zag step that precedes a terminal
straight case) and never dereferences a null pointer, so `Insert` always
returns. -/
theorem c7_fixup_terminates (t : RedBlackTree) (d : Int) (h : Reachable t) :
    t.Insert d ≠ none ∧
    (t.Contains d = false →
      InsertFixUpLoop ((BasicInsertCtx d t.root).length + 2)
        (.node d .COLOR_RED false .nil .nil) (BasicInsertCtx d t.root) ≠ none) := by
  have hwf := reachable_wf h
  by_cases hc : t.Contains d = true
  · refine ⟨by rw [Insert_contains hc]; simp, ?_⟩
    intro hc2
    rw [hc] at hc2
    cases hc2
  · have hc2 : t.Contains d = false := by simpa using hc
    obtain ⟨root2, heq, -, -, -⟩ := Insert_ok hwf hc2
    refine ⟨by rw [heq]; simp, ?_⟩
    intro _
    obtain ⟨s2, ctx2, hrun, -⟩ :=
      fixup_loop_ok ((BasicInsertCtx d t.root).length + 2)
        (.node d .COLOR_RED false .nil .nil) (BasicInsertCtx d t.root) 0
        (initial_loopInv hwf hc2) (Nat.le_refl _)
    rw [hrun]
    simp

theorem c7_fixup_terminates_witness :
    (RedBlackTree.mkSingle 5).Insert 7 ≠ none ∧
    ((RedBlackTree.mkSingle 5).Contains 7 = false →
      InsertFixUpLoop ((BasicInsertCtx 7 (RedBlackTree.mkSingle 5).root).length + 2)
        (.node 7 .COLOR_RED false .nil .nil)
        (BasicInsertCtx 7 (RedBlackTree.mkSingle 5).root) ≠ none) :=
  c7_fixup_terminates (RedBlackTree.mkSingle 5) 7 (Reachable.single 5)

/-- C8: the rotation primitives are pure structural operations: they
preserve the in-order sequence of (key, color) pairs — so every node keeps
its color, and the in-order key order is unchanged; only the links (and, via
the caller's plugging, the root reference when the pivot was the root)
change.  A rotation crashes (`none`) only when the required child is null,
which the fix-up call sites never do. -/
theorem c8_rotations_pure :
    (∀ t t2 : RBTNode, LeftRotate t = some t2 →
      pairsOf t2 = pairsOf t ∧ keysOf t2 = keysOf t) ∧
    (∀ t t2 : RBTNode, RightRotate t = some t2 →
      pairsOf t2 = pairsOf t ∧ keysOf t2 = keysOf t) := by
  constructor
  · intro t t2 hrot
    cases t with
    | nil => exact Option.noConfusion hrot
    | node d c i l r =>
      cases r with
      | nil => exact Option.noConfusion hrot
      | node rd rc ri rl rr =>
        rw [LeftRotate, Option.some_inj] at hrot
        subst hrot
        constructor <;> simp [pairsOf, keysOf, List.append_assoc]
  · intro t t2 hrot
    cases t with
    | nil => exact Option.noConfusion hrot
    | node d c i l r =>
      cases l with
      | nil => exact Option.noConfusion hrot
      | node ld lc li ll lr =>
        rw [RightRotate, Option.some_inj] at hrot
        subst hrot
        constructor <;> simp [pairsOf, keysOf, List.append_assoc]

theorem c8_rotations_pure_witness :
    LeftRotate (.node 1 .COLOR_BLACK false .nil (.node 2 .COLOR_RED false .nil .nil)) =
      some (.node 2 .COLOR_RED false (.node 1 .COLOR_BLACK false .nil .nil) .nil) ∧
    pairsOf (.node 2 .COLOR_RED false (.node 1 .COLOR_BLACK false .nil .nil) .nil) =
      pairsOf (.node 1 .COLOR_BLACK false .nil (.node 2 .COLOR_RED false .nil .nil)) ∧
    RightRotate (.node 2 .COLOR_RED false (.node 1 .COLOR_BLACK false .nil .nil) .nil) =
      some (.node 1 .COLOR_BLACK false .nil (.node 2 .COLOR_RED false .nil .nil)) ∧
    pairsOf (.node 1 .COLOR_BLACK false .nil (.node 2 .COLOR_RED false .nil .nil)) =
      pairsOf (.node 2 .COLOR_RED false (.node 1 .COLOR_BLACK false .nil .nil) .nil) :=
  ⟨by decide,
    (c8_rotations_pure.1 _ _ (by decide)).1,
    by decide,
    (c8_rotations_pure.2 _ _ (by decide)).1⟩

/-- C9: no public operation ever produces a node colored with the third
sentinel color: every node of every reachable tree is red or black, so the
color tag rendered for any of its nodes is `"R"` or `"B"`, never `"D"`. -/
theorem c9_no_sentinel_color (t : RedBlackTree) (h : Reachable t) :
    noDColor t.root = true ∧
    ∀ c ∈ colorsOf t.root, GetColorString c ≠ "D" := by
  have hnd := (reachable_wf h).hnd
  refine ⟨hnd, ?_⟩
  intro c hc
  rcases colorsOf_noD hnd c hc with rfl | rfl
  · exact (by decide : GetColorString Color.COLOR_RED ≠ "D")
  · exact (by decide : GetColorString Color.COLOR_BLACK ≠ "D")

theorem c9_no_sentinel_color_witness :
    noDColor (RedBlackTree.mkSingle 4).root = true ∧
    ∀ c ∈ colorsOf (RedBlackTree.mkSingle 4).root, GetColorString c ≠ "D" :=
  c9_no_sentinel_color (RedBlackTree.mkSingle 4) (Reachable.single 4)

/-- C10: a successful `Insert` of a key that is not stored changes the key
set by exactly adding that key: afterwards a key is stored exactly when it
was stored before or is the inserted key, and the number of stored keys and
`numItems` each grow by one. -/
theorem c10_insert_frame (t : RedBlackTree) (d : Int) (h : Reachable t)
    (hmem : d ∉ keysOf t.root) :
    ∃ t2, t.Insert d = some (t2, none) ∧
      (∀ k, k ∈ keysOf t2.root ↔ (k ∈ keysOf t.root ∨ k = d)) ∧
      (keysOf t2.root).length = (keysOf t.root).length + 1 ∧
      t2.numItems = t.numItems + 1 := by
  have hwf := reachable_wf h
  have hc : t.Contains d = false := by
    rw [← Bool.not_eq_true]
    intro hct
    exact hmem ((Contains_iff_mem hwf.hbst d).mp hct)
  obtain ⟨root2, heq, -, hiff, hlen⟩ := Insert_ok hwf hc
  exact ⟨⟨root2, t.numItems + 1⟩, heq, hiff, hlen, rfl⟩

theorem c10_insert_frame_witness :
    (7 : Int) ∉ keysOf (RedBlackTree.mkSingle 5).root ∧
    ∃ t2, (RedBlackTree.mkSingle 5).Insert 7 = some (t2, none) ∧
      (∀ k, k ∈ keysOf t2.root ↔ (k ∈ keysOf (RedBlackTree.mkSingle 5).root ∨ k = 7)) ∧
      (keysOf t2.root).length = (keysOf (RedBlackTree.mkSingle 5).root).length + 1 ∧
      t2.numItems = (RedBlackTree.mkSingle 5).numItems + 1 :=
  ⟨by decide, c10_insert_frame (RedBlackTree.mkSingle 5) 7 (Reachable.single 5) (by decide)⟩

